import Mathlib

/-!
# Verification of the dhstore core against its specification

Shallow embedding of the dhstore repository (content-addressable personal
data store, Rust) in Lean 4, together with proofs settling the claims of
the specification.  Each section embeds one source module:

* `src/hash.rs`          — digest identifiers, base64 textual codec
* `src/serialize.rs`     — canonical object codec (`read_item`, `write_property`)
* `src/bencode.rs`       — the strict bencode decoder (`BItem::parse`)
* `chunker/src/lib.rs`   — the content-defined chunker (`read_chunks`)
* `src/common.rs`        — `Property` ordering, `Sort`, blob-store GC
* `src/memory_index.rs`  — the in-memory object index, permanodes, claims, walk
* `src/file_storage.rs`  — blob path sharding and enumeration checks

Rust machine integers are modelled as `Nat` with explicit `% 2^w` where the
source relies on wrapping; byte strings are `List Nat` (byte values); maps
and sets are modelled as association lists / lists with set semantics, which
is observationally faithful for the properties proved here.
-/

namespace DHStore

/-- A digest identifier (`hash::ID`): the 32 raw hash bytes (source:
`pub struct ID { pub bytes: [u8; 32] }`).  Modelled as a list of byte
values; well-formedness (`length = 32`, entries `< 256`) is carried as
hypotheses where it matters. -/
abbrev ID := List Nat

/-! ## `src/hash.rs` — textual digest codec -/

/-- Source: `BASE64_CHARS`, the 64-character URL-safe alphabet
`A–Z a–z 0–9 - _` as byte values. -/
def BASE64_CHARS : List Nat :=
  [65, 66, 67, 68, 69, 70, 71, 72, 73, 74, 75, 76, 77, 78, 79, 80,
   81, 82, 83, 84, 85, 86, 87, 88, 89, 90,
   97, 98, 99, 100, 101, 102, 103, 104, 105, 106, 107, 108, 109, 110,
   111, 112, 113, 114, 115, 116, 117, 118, 119, 120, 121, 122,
   48, 49, 50, 51, 52, 53, 54, 55, 56, 57, 45, 95]

/-- Source: `BASE64_BYTES`, the 128-entry reverse table (64 marks an
invalid character). -/
def BASE64_BYTES : List Nat :=
  [64, 64, 64, 64, 64, 64, 64, 64, 64, 64, 64, 64, 64, 64, 64, 64,
   64, 64, 64, 64, 64, 64, 64, 64, 64, 64, 64, 64, 64, 64, 64, 64,
   64, 64, 64, 64, 64, 64, 64, 64, 64, 64, 64, 64, 64, 62, 64, 64,
   52, 53, 54, 55, 56, 57, 58, 59, 60, 61, 64, 64, 64, 64, 64, 64,
   64, 0, 1, 2, 3, 4, 5, 6, 7, 8, 9, 10, 11, 12, 13, 14,
   15, 16, 17, 18, 19, 20, 21, 22, 23, 24, 25, 64, 64, 64, 64, 63,
   64, 26, 27, 28, 29, 30, 31, 32, 33, 34, 35, 36, 37, 38, 39, 40,
   41, 42, 43, 44, 45, 46, 47, 48, 49, 50, 51, 64, 64, 64, 64, 64]

/-- Source: the local `fn b64(byte: u8) -> u8 { BASE64_CHARS[63 & (byte as usize)] }`
inside `ID::str`. -/
def b64c (x : Nat) : Nat := BASE64_CHARS.getD (63 &&& x) 0

/-- The encoding loop of `ID::str`: every 3 input bytes `b[0] b[1] b[2]`
produce the 4 characters
`b64(b[0] >> 2)`, `b64(b[0] << 4 | b[1] >> 4)`, `b64(b[1] << 2 | b[2] >> 6)`,
`b64(b[2])` (u8 shifts wrap, hence the `% 256`).  `ID::str` writes
`hashstr[0..4]` from the triple `(code, bytes[0], bytes[1])` with exactly
these four formulas (with `code = 12`), then runs `for i in 0..10` over the
remaining ten byte triples; that is the same as running this group encoder
over the 33-byte list `code :: bytes`. -/
def encGroups : List Nat → List Nat
  | b0 :: b1 :: b2 :: rest =>
      b64c (b0 >>> 2) ::
      b64c ((b0 <<< 4) % 256 ||| b1 >>> 4) ::
      b64c ((b1 <<< 2) % 256 ||| b2 >>> 6) ::
      b64c b2 ::
      encGroups rest
  | _ => []

/-- Source: `ID::str` — the 44-character textual form of a digest, with
leading type code 12. -/
def ID.str (bytes : ID) : List Nat := encGroups (12 :: bytes)

/-- Source: the `b64!` macro inside `ID::from_str`: characters `>= 128` and
characters mapped to 64 by `BASE64_BYTES` make the whole decode return
`None`. -/
def decChar (c : Nat) : Option Nat :=
  if c < 128 then
    let b := BASE64_BYTES.getD c 0
    if b = 64 then none else some b
  else none

/-- Decoding every character of the string through `b64!`; the macro's
early `return None` is modelled by propagating `none`. -/
def decChars : List Nat → Option (List Nat)
  | [] => some []
  | c :: rest =>
      match decChar c with
      | none => none
      | some v =>
          match decChars rest with
          | none => none
          | some vs => some (v :: vs)

/-- The decoding loop of `ID::from_str`: every 4 decoded 6-bit values
`s[0] s[1] s[2] s[3]` produce the 3 bytes
`s[0] << 2 | s[1] >> 4`, `s[1] << 4 | s[2] >> 2`, `s[2] << 6 | s[3]`
(u8 shifts wrap, hence the `% 256`).  `ID::from_str` computes `code` and
`out[0] out[1]` from characters 0–3 with exactly these formulas, then runs
`for i in 0..10` over the remaining ten character quadruples; that is the
same as running this group decoder over all 44 values, the first output
byte being `code`. -/
def decGroups : List Nat → List Nat
  | c0 :: c1 :: c2 :: c3 :: rest =>
      ((c0 <<< 2) % 256 ||| c1 >>> 4) ::
      ((c1 <<< 4) % 256 ||| c2 >>> 2) ::
      ((c2 <<< 6) % 256 ||| c3) ::
      decGroups rest
  | _ => []

/-- Source: `ID::from_str` — strict decode of the 44-character textual
form: length must be 44, every character must be in the alphabet, and the
leading type code must be 12. -/
def ID.from_str (s : List Nat) : Option ID :=
  if s.length = 44 then
    match decChars s with
    | none => none
    | some v =>
        match decGroups v with
        | code :: bytes => if code = 12 then some bytes else none
        | [] => none
  else none

/-! ### Facts about the digest codec -/

theorem and63_eq_mod (x : Nat) : 63 &&& x = x % 64 := by
  rw [Nat.and_comm]
  exact Nat.and_pow_two_sub_one_eq_mod x 6

theorem decChar_chars : ∀ k, k < 64 → decChar (BASE64_CHARS.getD k 0) = some k := by
  decide

theorem chars_getD_mem : ∀ k, k < 64 → BASE64_CHARS.getD k 0 ∈ BASE64_CHARS := by
  decide

theorem decChar_b64c (x : Nat) : decChar (b64c x) = some (x % 64) := by
  unfold b64c
  rw [and63_eq_mod]
  exact decChar_chars _ (Nat.mod_lt _ (by norm_num))

theorem b64c_mem (x : Nat) : b64c x ∈ BASE64_CHARS := by
  unfold b64c
  rw [and63_eq_mod]
  exact chars_getD_mem _ (Nat.mod_lt _ (by norm_num))

theorem or16 : ∀ a, a < 16 → ∀ b, b < 16 → 16 * a ||| b = 16 * a + b := by decide

theorem or4 : ∀ a, a < 64 → ∀ b, b < 4 → 4 * a ||| b = 4 * a + b := by decide

theorem or64 : ∀ a, a < 4 → ∀ b, b < 64 → 64 * a ||| b = 64 * a + b := by decide

theorem w1_eq (b0 b1 : Nat) (h0 : b0 < 256) (h1 : b1 < 256) :
    (b0 <<< 4) % 256 ||| b1 >>> 4 = 16 * (b0 % 16) + b1 / 16 := by
  have e1 : (b0 <<< 4) % 256 = 16 * (b0 % 16) := by rw [Nat.shiftLeft_eq]; omega
  have e2 : b1 >>> 4 = b1 / 16 := by rw [Nat.shiftRight_eq_div_pow]
  rw [e1, e2]
  exact or16 _ (by omega) _ (by omega)

theorem w2_eq (b1 b2 : Nat) (h1 : b1 < 256) (h2 : b2 < 256) :
    (b1 <<< 2) % 256 ||| b2 >>> 6 = 4 * (b1 % 64) + b2 / 64 := by
  have e1 : (b1 <<< 2) % 256 = 4 * (b1 % 64) := by rw [Nat.shiftLeft_eq]; omega
  have e2 : b2 >>> 6 = b2 / 64 := by rw [Nat.shiftRight_eq_div_pow]
  rw [e1, e2]
  exact or4 _ (by omega) _ (by omega)

theorem decGroups_enc (b0 b1 b2 : Nat) (vs : List Nat)
    (h0 : b0 < 256) (h1 : b1 < 256) (h2 : b2 < 256) :
    decGroups ((b0 >>> 2) % 64 :: ((b0 <<< 4) % 256 ||| b1 >>> 4) % 64 ::
      ((b1 <<< 2) % 256 ||| b2 >>> 6) % 64 :: b2 % 64 :: vs)
    = b0 :: b1 :: b2 :: decGroups vs := by
  rw [w1_eq b0 b1 h0 h1, w2_eq b1 b2 h1 h2]
  have a1 : (b0 >>> 2) % 64 = b0 / 4 := by rw [Nat.shiftRight_eq_div_pow]; omega
  have a3 : (16 * (b0 % 16) + b1 / 16) % 64 = 16 * (b0 % 4) + b1 / 16 := by omega
  have b3 : (4 * (b1 % 64) + b2 / 64) % 64 = 4 * (b1 % 16) + b2 / 64 := by omega
  have o0 : ((b0 / 4) <<< 2) % 256 ||| (16 * (b0 % 4) + b1 / 16) >>> 4 = b0 := by
    have a2 : ((b0 / 4) <<< 2) % 256 = 4 * (b0 / 4) := by rw [Nat.shiftLeft_eq]; omega
    have a4 : (16 * (b0 % 4) + b1 / 16) >>> 4 = b0 % 4 := by
      rw [Nat.shiftRight_eq_div_pow]; omega
    rw [a2, a4, or4 _ (by omega) _ (by omega)]; omega
  have o1 : ((16 * (b0 % 4) + b1 / 16) <<< 4) % 256 |||
      (4 * (b1 % 16) + b2 / 64) >>> 2 = b1 := by
    have b4 : ((16 * (b0 % 4) + b1 / 16) <<< 4) % 256 = 16 * (b1 / 16) := by
      rw [Nat.shiftLeft_eq]; omega
    have b5 : (4 * (b1 % 16) + b2 / 64) >>> 2 = b1 % 16 := by
      rw [Nat.shiftRight_eq_div_pow]; omega
    rw [b4, b5, or16 _ (by omega) _ (by omega)]; omega
  have o2 : ((4 * (b1 % 16) + b2 / 64) <<< 6) % 256 ||| b2 % 64 = b2 := by
    have c4 : ((4 * (b1 % 16) + b2 / 64) <<< 6) % 256 = 64 * (b2 / 64) := by
      rw [Nat.shiftLeft_eq]; omega
    rw [c4, or64 _ (by omega) _ (by omega)]; omega
  simp only [decGroups, a1, a3, b3, o0, o1, o2]

theorem roundGroups : ∀ (l : List Nat), (∀ x ∈ l, x < 256) → l.length % 3 = 0 →
    ∃ vs, decChars (encGroups l) = some vs ∧ decGroups vs = l
  | [], _, _ => ⟨[], by simp [encGroups, decChars, decGroups]⟩
  | [x], _, hlen => by simp at hlen
  | [x, y], _, hlen => by simp at hlen
  | b0 :: b1 :: b2 :: rest, h, hlen => by
      have hrest : ∀ x ∈ rest, x < 256 := fun x hx => h x (by simp [hx])
      obtain ⟨vs', hv', hd'⟩ := roundGroups rest hrest (by
        simp only [List.length_cons] at hlen ⊢
        omega)
      have h0 : b0 < 256 := h b0 (by simp)
      have h1 : b1 < 256 := h b1 (by simp)
      have h2 : b2 < 256 := h b2 (by simp)
      refine ⟨(b0 >>> 2) % 64 :: ((b0 <<< 4) % 256 ||| b1 >>> 4) % 64 ::
        ((b1 <<< 2) % 256 ||| b2 >>> 6) % 64 :: b2 % 64 :: vs', ?_, ?_⟩
      · simp [encGroups, decChars, decChar_b64c, hv']
      · rw [decGroups_enc b0 b1 b2 vs' h0 h1 h2, hd']

theorem encGroups_length : ∀ l : List Nat, (encGroups l).length = 4 * (l.length / 3)
  | [] => by simp [encGroups]
  | [x] => by simp [encGroups]
  | [x, y] => by simp [encGroups]
  | b0 :: b1 :: b2 :: rest => by
      simp only [encGroups, List.length_cons, encGroups_length rest]
      omega

theorem encGroups_alphabet : ∀ l : List Nat, ∀ c ∈ encGroups l, c ∈ BASE64_CHARS
  | b0 :: b1 :: b2 :: rest => by
      intro c hc
      simp only [encGroups, List.mem_cons] at hc
      rcases hc with h | h | h | h | h
      · exact h ▸ b64c_mem _
      · exact h ▸ b64c_mem _
      · exact h ▸ b64c_mem _
      · exact h ▸ b64c_mem _
      · exact encGroups_alphabet rest c h
  | [] => by intro c hc; simp [encGroups] at hc
  | [x] => by intro c hc; simp [encGroups] at hc
  | [x, y] => by intro c hc; simp [encGroups] at hc

theorem decChar_not_mem (c : Nat) (h : c ∉ BASE64_CHARS) : decChar c = none := by
  by_cases hc : c < 128
  · revert h
    have : ∀ c', c' < 128 → c' ∉ BASE64_CHARS → decChar c' = none := by decide
    exact this c hc
  · unfold decChar
    rw [if_neg hc]

theorem decChars_none (s : List Nat) (c : Nat) (hc : c ∈ s)
    (hn : decChar c = none) : decChars s = none := by
  induction s with
  | nil => simp at hc
  | cons a rest ih =>
      rcases List.mem_cons.mp hc with rfl | hmem
      · simp [decChars, hn]
      · unfold decChars
        cases hda : decChar a with
        | none => rfl
        | some v => rw [ih hmem]

/-- C8: for every 32-byte digest value `d`, `ID::str d` is a 44-character
string over the 64-character URL-safe alphabet and `ID::from_str` decodes
it back to exactly `d`; conversely `ID::from_str` returns `None` on any
input that is not 44 characters long, contains a character outside the
alphabet, or whose decoded leading type code is not 12. -/
theorem C8_digest_codec :
    (∀ d : ID, d.length = 32 → (∀ x ∈ d, x < 256) →
      (ID.str d).length = 44 ∧ (∀ c ∈ ID.str d, c ∈ BASE64_CHARS) ∧
      ID.from_str (ID.str d) = some d) ∧
    (∀ s : List Nat, s.length ≠ 44 → ID.from_str s = none) ∧
    (∀ s : List Nat, ∀ c ∈ s, c ∉ BASE64_CHARS → ID.from_str s = none) ∧
    (∀ s v : List Nat, s.length = 44 → decChars s = some v →
      (decGroups v).headD 0 ≠ 12 → ID.from_str s = none) := by
  refine ⟨?_, ?_, ?_, ?_⟩
  · intro d hlen hbytes
    have hall : ∀ x ∈ (12 :: d), x < 256 := by
      intro x hx
      rcases List.mem_cons.mp hx with rfl | h
      · norm_num
      · exact hbytes x h
    have hmod : (12 :: d).length % 3 = 0 := by simp [hlen]
    have hstrlen : (ID.str d).length = 44 := by
      unfold ID.str
      rw [encGroups_length]
      simp [hlen]
    refine ⟨hstrlen, fun c hc => encGroups_alphabet _ c hc, ?_⟩
    obtain ⟨vs, hv, hd⟩ := roundGroups (12 :: d) hall hmod
    have hstrlen' : (encGroups (12 :: d)).length = 44 := hstrlen
    unfold ID.from_str ID.str
    rw [if_pos hstrlen']
    simp [hv, hd]
  · intro s hne
    unfold ID.from_str
    rw [if_neg hne]
  · intro s c hc hnmem
    unfold ID.from_str
    by_cases hlen : s.length = 44
    · rw [if_pos hlen, decChars_none s c hc (decChar_not_mem c hnmem)]
    · rw [if_neg hlen]
  · intro s v hlen hv hcode
    unfold ID.from_str
    rw [if_pos hlen]
    simp only [hv]
    cases hg : decGroups v with
    | nil => simp [hg]
    | cons code bytes =>
        rw [hg] at hcode
        simp only [List.headD_cons] at hcode
        simp only [hg]
        rw [if_neg hcode]

/-- Witness for C8 at the concrete digest of the repository's own
`hash.rs` test (`b"abcdefghijklmnopqrstuvwxyz123456"`), also checking the
encoded form against the expected test vector
`"DGFiY2RlZmdoaWprbG1ub3BxcnN0dXZ3eHl6MTIzNDU2"`. -/
theorem C8_digest_codec_witness :
    ID.from_str (ID.str [97, 98, 99, 100, 101, 102, 103, 104, 105, 106, 107,
      108, 109, 110, 111, 112, 113, 114, 115, 116, 117, 118, 119, 120, 121,
      122, 49, 50, 51, 52, 53, 54]) = some [97, 98, 99, 100, 101, 102, 103,
      104, 105, 106, 107, 108, 109, 110, 111, 112, 113, 114, 115, 116, 117,
      118, 119, 120, 121, 122, 49, 50, 51, 52, 53, 54] ∧
    ID.str [97, 98, 99, 100, 101, 102, 103, 104, 105, 106, 107, 108, 109,
      110, 111, 112, 113, 114, 115, 116, 117, 118, 119, 120, 121, 122, 49,
      50, 51, 52, 53, 54] =
      [68, 71, 70, 105, 89, 50, 82, 108, 90, 109, 100, 111, 97, 87, 112,
       114, 98, 71, 49, 117, 98, 51, 66, 120, 99, 110, 78, 48, 100, 88, 90,
       51, 101, 72, 108, 54, 77, 84, 73, 122, 78, 68, 85, 50] :=
  ⟨C8_digest_codec.1 _ (by decide) (by decide) |>.2.2, by decide⟩

/-! ## `src/common.rs` — properties, object data, sort keys -/

/-- Source: `common::Property` — a tagged value inside an object.  Rust
`String`s are byte lists (UTF-8), `i64` is `Int` (all integers produced by
the decoder are range-checked there). -/
inductive Property where
  | string (s : List Nat)
  | integer (i : Int)
  | reference (id : ID)
  | blob (id : ID)
deriving DecidableEq

/-- Source: `type Dict = BTreeMap<String, Property>` — modelled as an
association list kept in ascending key order (the order in which all code
paths build and iterate it). -/
abbrev Dict := List (List Nat × Property)

/-- Source: `type List = Vec<Property>`. -/
abbrev PropList := List Property

/-- Source: `common::ObjectData`. -/
inductive ObjectData where
  | dict (d : Dict)
  | list (l : PropList)
deriving DecidableEq

/-- Source: `common::Object` — an `ObjectData` with its `ID` tacked on. -/
structure Object where
  id : ID
  data : ObjectData
deriving DecidableEq

/-- Source: `common::Sort` — the sorting field of a permanode
(`+field` ascending / `-field` descending). -/
inductive SortKey where
  | ascending (s : List Nat)
  | descending (s : List Nat)
deriving DecidableEq

/-- Source: `Sort::field`. -/
def SortKey.field : SortKey → List Nat
  | .ascending s => s
  | .descending s => s

/-- Source: `impl FromStr for Sort` — `+` (43) prefix is ascending, `-`
(45) prefix is descending, anything else fails. -/
def SortKey.from_str (s : List Nat) : Option SortKey :=
  match s with
  | 43 :: rest => some (.ascending rest)
  | 45 :: rest => some (.descending rest)
  | _ => none

/-- Strict lexicographic byte-order on strings, the order used by Rust
`String` comparison. -/
def lexLt : List Nat → List Nat → Bool
  | _, [] => false
  | [], _ :: _ => true
  | a :: as_, b :: bs => if a < b then true else if b < a then false else lexLt as_ bs

/-- Source: `impl Ord for Property` (`common.rs`): Strings < Integers <
References/Blobs; references and blobs compare by digest bytes and are
treated as the same kind. -/
def propertyCmp : Property → Property → Ordering
  | .string s1, .string s2 =>
      if lexLt s1 s2 then .lt else if lexLt s2 s1 then .gt else .eq
  | .string _, .integer _ => .lt
  | .string _, .reference _ => .lt
  | .string _, .blob _ => .lt
  | .integer _, .string _ => .gt
  | .integer i1, .integer i2 => if i1 < i2 then .lt else if i2 < i1 then .gt else .eq
  | .integer _, .reference _ => .lt
  | .integer _, .blob _ => .lt
  | .reference _, .string _ => .gt
  | .blob _, .string _ => .gt
  | .reference _, .integer _ => .gt
  | .blob _, .integer _ => .gt
  | .reference r1, .reference r2 =>
      if lexLt r1 r2 then .lt else if lexLt r2 r1 then .gt else .eq
  | .reference r1, .blob r2 =>
      if lexLt r1 r2 then .lt else if lexLt r2 r1 then .gt else .eq
  | .blob r1, .reference r2 =>
      if lexLt r1 r2 then .lt else if lexLt r2 r1 then .gt else .eq
  | .blob r1, .blob r2 =>
      if lexLt r1 r2 then .lt else if lexLt r2 r1 then .gt else .eq

/-! ## `src/serialize.rs` — the canonical object codec -/

/-- Source: the private `enum Item` of `serialize.rs` (`End` is renamed
`endMark`).  The `BTreeMap<String, Item>` of the `Dict` case is an
association list in insertion order, which the decoder keeps ascending. -/
inductive Item where
  | str (s : List Nat)
  | int (n : Int)
  | dict (entries : List (List Nat × Item))
  | list (elems : List Item)
  | endMark

/-- The two `io::ErrorKind`s used by `serialize.rs`: `UnexpectedEof`
(from `read_byte` at end of input) and `InvalidData` (from the `invalid!`
macro). -/
inductive IoErr where
  | unexpectedEof
  | invalidData
deriving DecidableEq

/-- `i64::MAX`, the bound of the `overflowing_mul/add` checks in the
integer branch of `read_item`. -/
def I64_MAX : Int := 9223372036854775807

/-- The integer loop of `read_item` (source lines 184–204): repeatedly
read a byte; a digit extends the accumulator with `i64` overflow checks
(the accumulator is never negative, so overflow is exactly exceeding
`i64::MAX`); `e` (101) terminates; anything else is `InvalidData`. -/
def readIntLoop (nb : Int) : (l : List Nat) →
    Except IoErr (Int × {r : List Nat // r.length < l.length})
  | [] => .error .unexpectedEof
  | d :: rest =>
      if 48 ≤ d ∧ d ≤ 57 then
        if I64_MAX < nb * 10 then .error .invalidData
        else if I64_MAX < nb * 10 + ((d : Int) - 48) then .error .invalidData
        else
          match readIntLoop (nb * 10 + ((d : Int) - 48)) rest with
          | .error e => .error e
          | .ok (n, ⟨r, hr⟩) => .ok (n, ⟨r, by simp only [List.length_cons]; omega⟩)
      else if d = 101 then .ok (nb, ⟨rest, by simp only [List.length_cons]; omega⟩)
      else .error .invalidData

/-- Reading `len` raw bytes of a string body (the `for _ in 0..len` of the
string branch of `read_item`). -/
def readStrBytes : (len : Nat) → (l : List Nat) →
    Except IoErr (List Nat × {r : List Nat // r.length ≤ l.length})
  | 0, l => .ok ([], ⟨l, le_refl _⟩)
  | _ + 1, [] => .error .unexpectedEof
  | n + 1, c :: rest =>
      match readStrBytes n rest with
      | .error e => .error e
      | .ok (s, ⟨r, hr⟩) => .ok (c :: s, ⟨r, by simp only [List.length_cons]; omega⟩)

/-- The string-length loop of `read_item` (source lines 167–183): digits
extend the decimal length, `:` (58) switches to reading the body, anything
else is `InvalidData`. -/
def readLenLoop (len : Nat) : (l : List Nat) →
    Except IoErr (List Nat × {r : List Nat // r.length < l.length})
  | [] => .error .unexpectedEof
  | c :: rest =>
      if 48 ≤ c ∧ c ≤ 57 then
        match readLenLoop (len * 10 + (c - 48)) rest with
        | .error e => .error e
        | .ok (s, ⟨r, hr⟩) => .ok (s, ⟨r, by simp only [List.length_cons]; omega⟩)
      else if c = 58 then
        match readStrBytes len rest with
        | .error e => .error e
        | .ok (s, ⟨r, hr⟩) => .ok (s, ⟨r, by simp only [List.length_cons]; omega⟩)
      else .error .invalidData

mutual

/-- Source: `serialize::read_item` — the recursive item reader.  Reads one
byte and dispatches: `d` (100) dict, `l` (108) list, digit string, `i`
(105) integer, `e` (101) the `End` marker; anything else is
`InvalidData`.  The returned subtype carries the consumed-at-least-one-
byte fact used for termination. -/
def readItem : (l : List Nat) → Except IoErr (Item × {r : List Nat // r.length < l.length})
  | [] => .error .unexpectedEof
  | c :: rest =>
      if c = 100 then
        match readDictRest rest [] with
        | .error e => .error e
        | .ok (it, ⟨r, hr⟩) => .ok (it, ⟨r, by simp only [List.length_cons]; omega⟩)
      else if c = 108 then
        match readListRest rest [] with
        | .error e => .error e
        | .ok (it, ⟨r, hr⟩) => .ok (it, ⟨r, by simp only [List.length_cons]; omega⟩)
      else if 48 ≤ c ∧ c ≤ 57 then
        match readLenLoop (c - 48) rest with
        | .error e => .error e
        | .ok (s, ⟨r, hr⟩) => .ok (.str s, ⟨r, by simp only [List.length_cons]; omega⟩)
      else if c = 105 then
        match readIntLoop 0 rest with
        | .error e => .error e
        | .ok (n, ⟨r, hr⟩) => .ok (.int n, ⟨r, by simp only [List.length_cons]; omega⟩)
      else if c = 101 then .ok (.endMark, ⟨rest, by simp only [List.length_cons]; omega⟩)
      else .error .invalidData
termination_by l => (l.length, 0)

/-- The dict loop of `read_item`: read a key item (`End` closes the dict,
non-strings are invalid), reject a key smaller than the largest key so far
(`last > &key`) and duplicate keys, then read the value (`End` is a
missing value) and continue. -/
def readDictRest : (l : List Nat) → List (List Nat × Item) →
    Except IoErr (Item × {r : List Nat // r.length < l.length})
  | l, entries =>
      match readItem l with
      | .error e => .error e
      | .ok (.endMark, r) => .ok (.dict entries, r)
      | .ok (.str key, ⟨r1, h1⟩) =>
          if (entries.getLast?.map (fun e => lexLt key e.1)).getD false then
            .error .invalidData
          else if entries.any (fun e => e.1 = key) then
            .error .invalidData
          else
            match readItem r1 with
            | .error e => .error e
            | .ok (.endMark, _) => .error .invalidData
            | .ok (v, ⟨r2, h2⟩) =>
                match readDictRest r2 (entries ++ [(key, v)]) with
                | .error e => .error e
                | .ok (it, ⟨r3, h3⟩) => .ok (it, ⟨r3, by omega⟩)
      | .ok (_, _) => .error .invalidData
termination_by l entries => (l.length, 1)

/-- The list loop of `read_item`: read items until `End`. -/
def readListRest : (l : List Nat) → List Item →
    Except IoErr (Item × {r : List Nat // r.length < l.length})
  | l, elems =>
      match readItem l with
      | .error e => .error e
      | .ok (.endMark, r) => .ok (.list elems, r)
      | .ok (v, ⟨r1, h1⟩) =>
          match readListRest r1 (elems ++ [v]) with
          | .error e => .error e
          | .ok (it, ⟨r2, h2⟩) => .ok (it, ⟨r2, by omega⟩)
termination_by l elems => (l.length, 1)

end

/-- `read_item` with the termination bound erased: the item and the
remaining input. -/
def read_item (l : List Nat) : Except IoErr (Item × List Nat) :=
  match readItem l with
  | .error e => .error e
  | .ok (it, r) => .ok (it, r.1)

/-- Decimal digits of a natural number (the `Display` of Rust integers);
the fuel is always sufficient since `n` needs at most `n + 1` digits. -/
def natDigitsAux : Nat → Nat → List Nat
  | 0, _ => []
  | fuel + 1, n => if n < 10 then [48 + n] else natDigitsAux fuel (n / 10) ++ [48 + n % 10]

def natDigits (n : Nat) : List Nat := natDigitsAux (n + 1) n

/-- Decimal rendering of an `i64` (`write!(out, "i{}e", i)` uses this for
the middle part): optional `-` (45) then the digits. -/
def intDigits (i : Int) : List Nat :=
  if i < 0 then 45 :: natDigits i.natAbs else natDigits i.toNat

/-- Source: `serialize::write_str` — `<len>:<bytes>`. -/
def write_str (s : List Nat) : List Nat := natDigits s.length ++ [58] ++ s

/-- Source: `serialize::write_ref` — `d3:ref<str>e` or `d4:blob<str>e`. -/
def write_ref (id : ID) (blob : Bool) : List Nat :=
  (if blob then [100, 52, 58, 98, 108, 111, 98] else [100, 51, 58, 114, 101, 102]) ++
    write_str (ID.str id) ++ [101]

/-- Source: `serialize::write_property`. -/
def write_property : Property → List Nat
  | .string s => write_str s
  | .integer i => 105 :: intDigits i ++ [101]
  | .reference id => write_ref id false
  | .blob id => write_ref id true

/-- Source: `serialize::write_data` — `d`…`e` around key/value pairs of a
dict (iterated in ascending key order, which is the list order here), or
`l`…`e` around list values. -/
def write_data : ObjectData → List Nat
  | .dict d => 100 :: (d.flatMap fun kv => write_str kv.1 ++ write_property kv.2) ++ [101]
  | .list l => 108 :: (l.flatMap write_property) ++ [101]

/-! ### Nesting depth of decoded items (the quantity the spec bounds) -/

mutual

/-- Nesting depth of an `Item`: atoms are 0, a dict or list is one more
than the deepest entry. -/
def itemDepth : Item → Nat
  | .str _ => 0
  | .int _ => 0
  | .endMark => 0
  | .dict entries => 1 + itemEntriesDepth entries
  | .list elems => 1 + itemElemsDepth elems

def itemEntriesDepth : List (List Nat × Item) → Nat
  | [] => 0
  | e :: rest => max (itemDepth e.2) (itemEntriesDepth rest)

def itemElemsDepth : List Item → Nat
  | [] => 0
  | e :: rest => max (itemDepth e) (itemElemsDepth rest)

end

/-- The nested singleton lists `[[…[[]]…]]` with `k + 1` brackets,
i.e. the item parsed from `l^(k+1) e^(k+1)`. -/
def chainItem : Nat → Item
  | 0 => .list []
  | k + 1 => .list [chainItem k]

theorem itemDepth_chain : ∀ k, itemDepth (chainItem k) = k + 1
  | 0 => by simp [chainItem, itemDepth, itemElemsDepth]
  | k + 1 => by
      simp [chainItem, itemDepth, itemElemsDepth, itemDepth_chain k]
      omega

/-- C4: the integer codec of `serialize.rs`, evaluated at the inputs named
by the claim.  Serializing `Integer(-4)` does produce `i-4e` (105 45 52 101)
and `i0e` does decode to 0 and `i` does fail with end-of-input, but —
contrary to the claim — `read_item` rejects `i-4e` (it has no handling for
`-`, so the codec cannot read back its own output), accepts the
non-canonical `i01e` as 1, and accepts `ie` as 0. -/
theorem C4_integer_codec_eval :
    write_property (.integer (-4)) = [105, 45, 52, 101] ∧
    read_item [105, 45, 52, 101] = .error .invalidData ∧
    read_item [105, 48, 101] = .ok (.int 0, []) ∧
    read_item [105, 48, 49, 101] = .ok (.int 1, []) ∧
    read_item [105] = .error .unexpectedEof ∧
    read_item [105, 101] = .ok (.int 0, []) := by
  refine ⟨by decide, ?_, ?_, ?_, ?_, ?_⟩ <;>
    simp [read_item, readItem, readIntLoop, I64_MAX]

/-- C6 counterexample: `read_item` (the object decoder of `serialize.rs`)
accepts the input `l^40 e^40`, whose nesting depth is 40 > 32 — it imposes
no depth bound at all. -/
theorem C6_depth_counterexample :
    read_item (List.replicate 40 108 ++ List.replicate 40 101) =
      .ok (chainItem 39, []) ∧
    itemDepth (chainItem 39) = 40 ∧ ¬ itemDepth (chainItem 39) ≤ 32 := by
  refine ⟨?_, ?_, ?_⟩
  · simp [read_item, readItem, readListRest, chainItem, List.replicate]
  · rw [itemDepth_chain]
  · rw [itemDepth_chain]
    omega

/-! ## `src/bencode.rs` — the strict bencode decoder -/

/-- Source: `bencode::BDecodeError`. -/
inductive BDecodeError where
  | ParseError
  | DuplicatedKey
  | OutOfOrderKey
  | NonBytesKey
  | TrailingTokens
  | UnexpectedEOF
  | DepthExceeded
deriving DecidableEq

/-- Source: `bencode::BItem` (`Integer` is `i32`, range-checked during
parsing; `Dictionary` is a `HashMap` modelled as an association list in
insertion order). -/
inductive BItem where
  | integer (i : Int)
  | bytestring (s : List Nat)
  | list (l : List BItem)
  | dict (entries : List (List Nat × BItem))

/-- Source: `bencode::is_digit`. -/
def bIsDigit (b : Nat) : Bool := 48 ≤ b && b ≤ 57

/-- `i32::MAX`, the bound of the `checked_mul/checked_add` in the integer
branch (the accumulator is never negative). -/
def I32_MAX : Int := 2147483647

/-- `usize::MAX`, the bound of the `checked_mul/checked_add` in the
bytestring-length branch. -/
def USIZE_MAX : Nat := 18446744073709551615

/-- The digit loop of the integer branch of `parse_internal_r`
(`while pos < bencoded.len() && is_digit(...)`): `prev` is the previously
consumed byte (`bencoded[pos - 1]`), `count` the number of digits read.
Rejects a digit following a leading `0` and `i32` overflow. -/
def bIntLoop (prev : Nat) (val : Int) (count : Nat) :
    (m : List Nat) → Except BDecodeError (Int × Nat × {r : List Nat // r.length ≤ m.length})
  | [] => .ok (val, count, ⟨[], by simp⟩)
  | c :: rest =>
      if bIsDigit c then
        if val = 0 ∧ prev = 48 then .error .ParseError
        else if I32_MAX < val * 10 + ((c : Int) - 48) then .error .ParseError
        else
          match bIntLoop c (val * 10 + ((c : Int) - 48)) (count + 1) rest with
          | .error e => .error e
          | .ok (v, cnt, ⟨r, hr⟩) => .ok (v, cnt, ⟨r, by simp only [List.length_cons]; omega⟩)
      else .ok (val, count, ⟨c :: rest, le_refl _⟩)

/-- The digit loop of the bytestring branch of `parse_internal_r`, with
the same leading-zero and (`usize`) overflow checks. -/
def bLenLoop (prev : Nat) (len : Nat) :
    (m : List Nat) → Except BDecodeError (Nat × {r : List Nat // r.length ≤ m.length})
  | [] => .ok (len, ⟨[], by simp⟩)
  | c :: rest =>
      if bIsDigit c then
        if len = 0 ∧ prev = 48 then .error .ParseError
        else if USIZE_MAX < len * 10 + (c - 48) then .error .ParseError
        else
          match bLenLoop c (len * 10 + (c - 48)) rest with
          | .error e => .error e
          | .ok (n, ⟨r, hr⟩) => .ok (n, ⟨r, by simp only [List.length_cons]; omega⟩)
      else .ok (len, ⟨c :: rest, le_refl _⟩)

mutual

/-- Source: `BItem::parse_internal_r` — parses one bencoded item from the
slice `bencoded` (modelled as the remaining byte list; the returned
`usize` offset becomes the remaining suffix).  A slice shorter than 2
bytes is `UnexpectedEOF`; `i` starts an integer (optional `-` sign, `pos
< 2` — i.e. no sign and no digits — is a `ParseError`), `l` a list and
`d` a dictionary (both `DepthExceeded` at depth ≥ 32, children at `depth
+ 1`), a digit a bytestring (`:` then `length` bytes). -/
def parse_internal_r (bencoded : List Nat) (allow : Bool) (depth : Nat) :
    Except BDecodeError (BItem × {r : List Nat // r.length < bencoded.length}) :=
  match bencoded with
  | [] => .error .UnexpectedEOF
  | [_] => .error .UnexpectedEOF
  | b0 :: b1 :: rest2 =>
      if b0 = 105 then
        if b1 = 45 then
          match bIntLoop 45 0 0 rest2 with
          | .error e => .error e
          | .ok (val, _, ⟨rem, hrem⟩) =>
              match rem, hrem with
              | [], _ => .error .UnexpectedEOF
              | c :: r, hrem' =>
                  if c ≠ 101 then .error .ParseError
                  else .ok (.integer (-1 * val),
                      ⟨r, by simp only [List.length_cons] at *; omega⟩)
        else
          match bIntLoop 105 0 0 (b1 :: rest2) with
          | .error e => .error e
          | .ok (val, count, ⟨rem, hrem⟩) =>
              match rem, hrem with
              | [], _ => .error .UnexpectedEOF
              | c :: r, hrem' =>
                  if count = 0 ∨ c ≠ 101 then .error .ParseError
                  else .ok (.integer val,
                      ⟨r, by simp only [List.length_cons] at *; omega⟩)
      else if b0 = 108 then
        if 32 ≤ depth then .error .DepthExceeded
        else
          match parseListRest (b1 :: rest2) allow depth [] with
          | .error e => .error e
          | .ok (it, ⟨r, hr⟩) => .ok (it, ⟨r, by simp only [List.length_cons] at *; omega⟩)
      else if b0 = 100 then
        if 32 ≤ depth then .error .DepthExceeded
        else
          match parseDictRest (b1 :: rest2) allow depth [] none with
          | .error e => .error e
          | .ok (it, ⟨r, hr⟩) => .ok (it, ⟨r, by simp only [List.length_cons] at *; omega⟩)
      else if bIsDigit b0 then
        match bLenLoop b0 (b0 - 48) (b1 :: rest2) with
        | .error e => .error e
        | .ok (length, ⟨rem, hrem⟩) =>
            match rem, hrem with
            | [], _ => .error .ParseError
            | c :: r, hrem' =>
                if c ≠ 58 then .error .ParseError
                else if r.length < length then .error .UnexpectedEOF
                else .ok (.bytestring (r.take length),
                    ⟨r.drop length, by
                      simp only [List.length_cons, List.length_drop] at *; omega⟩)
      else .error .ParseError
termination_by (bencoded.length, 0)

/-- The `while` loop of the list branch: `e` closes the list, end of
input is `UnexpectedEOF`, otherwise parse a child at `depth + 1`. -/
def parseListRest (m : List Nat) (allow : Bool) (depth : Nat) (acc : List BItem) :
    Except BDecodeError (BItem × {r : List Nat // r.length < m.length}) :=
  match m with
  | [] => .error .UnexpectedEOF
  | c :: rest =>
      if c = 101 then .ok (.list acc, ⟨rest, by simp only [List.length_cons]; omega⟩)
      else
        match parse_internal_r (c :: rest) allow (depth + 1) with
        | .error e => .error e
        | .ok (item, ⟨r, hr⟩) =>
            have hr' : r.length < rest.length + 1 := by
              simp only [List.length_cons] at hr; omega
            match parseListRest r allow depth (acc ++ [item]) with
            | .error e => .error e
            | .ok (it, ⟨r2, h2⟩) => .ok (it, ⟨r2, by simp only [List.length_cons]; omega⟩)
termination_by (m.length, 1)

/-- The `while` loop of the dictionary branch: `e` closes the dict; a key
is parsed at `depth + 1` and must be a bytestring (`NonBytesKey`); a key
equal to the previous one is `DuplicatedKey`, a smaller one (strict mode)
`OutOfOrderKey`; then the value is parsed at `depth + 1` and the
`HashMap::insert` duplicate check runs. -/
def parseDictRest (m : List Nat) (allow : Bool) (depth : Nat)
    (entries : List (List Nat × BItem)) (lastKey : Option (List Nat)) :
    Except BDecodeError (BItem × {r : List Nat // r.length < m.length}) :=
  match m with
  | [] => .error .UnexpectedEOF
  | c :: rest =>
      if c = 101 then .ok (.dict entries, ⟨rest, by simp only [List.length_cons]; omega⟩)
      else
        match parse_internal_r (c :: rest) allow (depth + 1) with
        | .error e => .error e
        | .ok (.bytestring key, ⟨r1, h1⟩) =>
            if (lastKey.map (fun oldkey => oldkey == key)).getD false then
              .error .DuplicatedKey
            else if (lastKey.map (fun oldkey => !allow && lexLt key oldkey)).getD false then
              .error .OutOfOrderKey
            else
              match parse_internal_r r1 allow (depth + 1) with
              | .error e => .error e
              | .ok (value, ⟨r2, h2⟩) =>
                  if entries.any (fun e => e.1 = key) then .error .DuplicatedKey
                  else
                    have h2' : r2.length < rest.length + 1 := by
                      simp only [List.length_cons] at h1; omega
                    match parseDictRest r2 allow depth (entries ++ [(key, value)]) (some key) with
                    | .error e => .error e
                    | .ok (it, ⟨r3, h3⟩) => .ok (it, ⟨r3, by simp only [List.length_cons]; omega⟩)
        | .ok (_, _) => .error .NonBytesKey
termination_by (m.length, 1)

end

/-- Source: `BItem::parse_internal` — parse one item and require the
whole input to be consumed (`TrailingTokens`). -/
def parse_internal (bencoded : List Nat) (allow : Bool) : Except BDecodeError BItem :=
  match parse_internal_r bencoded allow 0 with
  | .error e => .error e
  | .ok (it, ⟨r, _⟩) => if r = [] then .ok it else .error .TrailingTokens

/-- Source: `BItem::parse` — strict (dhstore BNode) mode. -/
def BItem.parse (bencoded : List Nat) : Except BDecodeError BItem :=
  parse_internal bencoded false

/-- Source: `BItem::parse_raw` — DHT mode, out-of-order keys allowed. -/
def BItem.parse_raw (bencoded : List Nat) : Except BDecodeError BItem :=
  parse_internal bencoded true

mutual

/-- Nesting depth of a `BItem`: atoms are 0, a list or dictionary is one
more than the deepest entry. -/
def bitemDepth : BItem → Nat
  | .integer _ => 0
  | .bytestring _ => 0
  | .list l => 1 + blistDepth l
  | .dict entries => 1 + bdictDepth entries

def blistDepth : List BItem → Nat
  | [] => 0
  | e :: rest => max (bitemDepth e) (blistDepth rest)

def bdictDepth : List (List Nat × BItem) → Nat
  | [] => 0
  | e :: rest => max (bitemDepth e.2) (bdictDepth rest)

end

theorem blistDepth_le (v : Nat) : ∀ l : List BItem, (∀ a ∈ l, bitemDepth a ≤ v) →
    blistDepth l ≤ v
  | [], _ => by simp [blistDepth]
  | e :: rest, h => by
      simp only [blistDepth, max_le_iff]
      exact ⟨h e (by simp), blistDepth_le v rest (fun a ha => h a (by simp [ha]))⟩

theorem bdictDepth_le (v : Nat) : ∀ l : List (List Nat × BItem),
    (∀ e ∈ l, bitemDepth e.2 ≤ v) → bdictDepth l ≤ v
  | [], _ => by simp [bdictDepth]
  | e :: rest, h => by
      simp only [bdictDepth, max_le_iff]
      exact ⟨h e (by simp), bdictDepth_le v rest (fun a ha => h a (by simp [ha]))⟩

set_option maxHeartbeats 1000000 in
/-- Joint depth bound for the three mutually recursive bencode parsing
functions, by strong induction on a combined size measure. -/
theorem bDepthAux : ∀ k : Nat,
    (∀ l : List Nat, ∀ allow depth it r, 2 * l.length ≤ k → depth ≤ 32 →
      parse_internal_r l allow depth = .ok (it, r) → bitemDepth it ≤ 32 - depth) ∧
    (∀ m : List Nat, ∀ allow depth entries lastKey it r, 2 * m.length + 1 ≤ k →
      depth + 1 ≤ 32 → (∀ e ∈ entries, bitemDepth e.2 ≤ 32 - (depth + 1)) →
      parseDictRest m allow depth entries lastKey = .ok (it, r) →
      bitemDepth it ≤ 32 - depth) ∧
    (∀ m : List Nat, ∀ allow depth acc it r, 2 * m.length + 1 ≤ k →
      depth + 1 ≤ 32 → (∀ a ∈ acc, bitemDepth a ≤ 32 - (depth + 1)) →
      parseListRest m allow depth acc = .ok (it, r) → bitemDepth it ≤ 32 - depth) := by
  intro k
  induction k with
  | zero =>
      refine ⟨?_, ?_, ?_⟩
      · intro l allow depth it r hk _ hok
        have : l = [] := by
          cases l with
          | nil => rfl
          | cons a t => simp at hk
        subst this
        simp [parse_internal_r] at hok
      · intro m allow depth entries lastKey it r hk
        omega
      · intro m allow depth acc it r hk
        omega
  | succ k ih =>
      obtain ⟨ihA, ihB, ihC⟩ := ih
      refine ⟨?_, ?_, ?_⟩
      · -- parse_internal_r
        intro l allow depth it r hk hd hok
        match l with
        | [] => simp [parse_internal_r] at hok
        | [x] => simp [parse_internal_r] at hok
        | b0 :: b1 :: rest2 =>
          simp only [parse_internal_r] at hok
          split at hok
          · -- b0 = 105: integer; every success is `.integer`, depth 0
            repeat' split at hok
            all_goals
              first
                | exact Except.noConfusion hok
                | (simp only [Except.ok.injEq, Prod.mk.injEq] at hok
                   obtain ⟨hit, -⟩ := hok
                   subst hit
                   simp only [bitemDepth]
                   omega)
          · split at hok
            · -- b0 = 108: list
              split at hok
              · exact Except.noConfusion hok
              · rename_i hdep
                split at hok
                · exact Except.noConfusion hok
                · rename_i it2 r2 hr2 hcall
                  simp only [Except.ok.injEq, Prod.mk.injEq] at hok
                  obtain ⟨hit, -⟩ := hok
                  subst hit
                  refine ihC (b1 :: rest2) allow depth [] it2 ⟨r2, hr2⟩ ?_ ?_ ?_ hcall
                  · simp only [List.length_cons] at hk ⊢
                    omega
                  · omega
                  · intro a ha
                    simp at ha
            · split at hok
              · -- b0 = 100: dict
                split at hok
                · exact Except.noConfusion hok
                · rename_i hdep
                  split at hok
                  · exact Except.noConfusion hok
                  · rename_i it2 r2 hr2 hcall
                    simp only [Except.ok.injEq, Prod.mk.injEq] at hok
                    obtain ⟨hit, -⟩ := hok
                    subst hit
                    refine ihB (b1 :: rest2) allow depth [] none it2 ⟨r2, hr2⟩ ?_ ?_ ?_ hcall
                    · simp only [List.length_cons] at hk ⊢
                      omega
                    · omega
                    · intro e he
                      simp at he
              · split at hok
                · -- digit: bytestring; every success is `.bytestring`, depth 0
                  repeat' split at hok
                  all_goals
                    first
                      | exact Except.noConfusion hok
                      | (simp only [Except.ok.injEq, Prod.mk.injEq] at hok
                         obtain ⟨hit, -⟩ := hok
                         subst hit
                         simp only [bitemDepth]
                         omega)
                · simp at hok
      · -- parseDictRest
        intro m allow depth entries lastKey it r hk hd1 hent hok
        match m with
        | [] => simp [parseDictRest] at hok
        | c :: rest =>
          simp only [parseDictRest] at hok
          split at hok
          · -- `e`: close the dict
            simp only [Except.ok.injEq, Prod.mk.injEq] at hok
            obtain ⟨hit, -⟩ := hok
            subst hit
            simp only [bitemDepth]
            have := bdictDepth_le _ entries hent
            omega
          · -- match on the parsed key item
            split at hok
            · exact Except.noConfusion hok
            · -- `.ok (.bytestring key, ⟨r1, h1len⟩)`
              rename_i key r1 h1len hkeyEq
              split at hok
              · exact Except.noConfusion hok
              · split at hok
                · exact Except.noConfusion hok
                · -- match on the parsed value
                  split at hok
                  · exact Except.noConfusion hok
                  · rename_i value r2 h2len hvalEq
                    split at hok
                    · exact Except.noConfusion hok
                    · -- match on the recursive call
                      split at hok
                      · exact Except.noConfusion hok
                      · rename_i it3 r3 h3len hrecEq
                        simp only [Except.ok.injEq, Prod.mk.injEq] at hok
                        obtain ⟨hit, -⟩ := hok
                        subst hit
                        simp only [List.length_cons] at hk h1len
                        refine ihB r2 allow depth (entries ++ [(key, value)]) (some key)
                          it3 ⟨r3, h3len⟩ ?_ hd1 ?_ hrecEq
                        · omega
                        · intro e he
                          rcases List.mem_append.mp he with he | he
                          · exact hent e he
                          · have hval : bitemDepth value ≤ 32 - (depth + 1) := by
                              refine ihA r1 allow (depth + 1) value ⟨r2, h2len⟩ ?_ ?_ hvalEq
                              · omega
                              · omega
                            simp at he
                            rw [he]
                            exact hval
            · exact Except.noConfusion hok
      · -- parseListRest
        intro m allow depth acc it r hk hd1 hacc hok
        match m with
        | [] => simp [parseListRest] at hok
        | c :: rest =>
          simp only [parseListRest] at hok
          split at hok
          · -- `e`: close the list
            simp only [Except.ok.injEq, Prod.mk.injEq] at hok
            obtain ⟨hit, -⟩ := hok
            subst hit
            simp only [bitemDepth]
            have := blistDepth_le _ acc hacc
            omega
          · split at hok
            · exact Except.noConfusion hok
            · rename_i item r1 h1 hitemEq
              split at hok
              · exact Except.noConfusion hok
              · rename_i it2 r2 h2 hrecEq
                simp only [Except.ok.injEq, Prod.mk.injEq] at hok
                obtain ⟨hit, -⟩ := hok
                subst hit
                simp only [List.length_cons] at hk h1
                refine ihC r1 allow depth (acc ++ [item]) it2 ⟨r2, h2⟩ ?_ hd1 ?_ hrecEq
                · omega
                · intro a ha
                  rcases List.mem_append.mp ha with ha | ha
                  · exact hacc a ha
                  · have hv : bitemDepth item ≤ 32 - (depth + 1) := by
                      refine ihA (c :: rest) allow (depth + 1) item ⟨r1, ?_⟩ ?_ ?_ hitemEq
                      · simp only [List.length_cons]
                        omega
                      · simp only [List.length_cons]
                        omega
                      · omega
                    simp at ha
                    rw [ha]
                    exact hv

set_option maxHeartbeats 2000000 in
set_option maxRecDepth 8000 in
/-- C6 (amended): it is the bencode decoder (`BItem::parse`, the decoder
whose failure kinds the spec lists) that bounds nesting: no accepted input
decodes to an item of nesting depth above 32, and over-deep input fails
with `DepthExceeded` (here 34 nested `l`s); the object decoder
`read_item` of `serialize.rs` imposes no depth bound (see the
counterexample). -/
theorem C6_bencode_depth_bound :
    (∀ l : List Nat, ∀ it : BItem, BItem.parse l = .ok it → bitemDepth it ≤ 32) ∧
    BItem.parse (List.replicate 34 108) = .error .DepthExceeded := by
  constructor
  · intro l it hok
    unfold BItem.parse parse_internal at hok
    cases hr : parse_internal_r l false 0 with
    | error e =>
        rw [hr] at hok
        exact Except.noConfusion hok
    | ok p =>
        obtain ⟨it2, rv, hv⟩ := p
        rw [hr] at hok
        dsimp only at hok
        split at hok
        · have hb := (bDepthAux (2 * l.length)).1 l false 0 it2 ⟨rv, hv⟩ (le_refl _)
            (by omega) hr
          simp only [Except.ok.injEq] at hok
          subst hok
          simpa using hb
        · exact Except.noConfusion hok
  · simp [BItem.parse, parse_internal, parse_internal_r, parseListRest, List.replicate]

/-- Witness for C6 at the concrete input `le` (the empty list). -/
theorem C6_bencode_depth_bound_witness :
    BItem.parse [108, 101] = .ok (.list []) ∧ bitemDepth (.list []) ≤ 32 := by
  have hp : BItem.parse [108, 101] = .ok (.list []) := by
    simp [BItem.parse, parse_internal, parse_internal_r, parseListRest]
  exact ⟨hp, C6_bencode_depth_bound.1 [108, 101] (.list []) hp⟩

/-! ## `chunker/src/lib.rs` — the content-defined chunker -/

/-- Source: `enum ChunkInput` — a data slice or a chunk boundary
(`End`). -/
inductive ChunkInput where
  | data (d : List Nat)
  | endMark

/-- Source: `const HM: Wrapping<u32> = Wrapping(123456791)`. -/
def HM : Nat := 123456791

/-- The reads performed by the `Cursor` in `read_chunks`: the input split
into successive buffers of `bufSize` bytes (the final one possibly
shorter), followed by the empty read that ends the loop. -/
def toBuffersAux (bufSize : Nat) (acc : List Nat) (cnt : Nat) : List Nat → List (List Nat)
  | [] => if acc.isEmpty then [] else [acc.reverse]
  | c :: rest =>
      if cnt + 1 = bufSize then (c :: acc).reverse :: toBuffersAux bufSize [] 0 rest
      else toBuffersAux bufSize (c :: acc) (cnt + 1) rest

def toBuffers (bufSize : Nat) (l : List Nat) : List (List Nat) :=
  toBuffersAux bufSize [] 0 l

/-- The per-byte hash update of `read_chunks`: `h·HM + (c+1)` on a
first-order-context match (`c == o1[c1]`), `h·HM·2 + (c+1)` otherwise;
all arithmetic wraps at 32 bits. -/
def chunkStep (o1 : Nat → Nat) (c1 h c : Nat) : Nat :=
  if c = o1 c1 then (h * HM + (c + 1)) % 4294967296
  else (h * HM * 2 + (c + 1)) % 4294967296

/-- The inner `for (i, &c) in buf[..len].iter().enumerate()` loop of
`read_chunks` over one buffer.  `pending` is `buf[s..i]`; when
`h < 1 << nbits` the bytes up to and including `c` and a boundary are
emitted and the state resets (`c1 = 0`, `o1 = [0; 256]`, `h = HM`,
`chunk_emitted = false`); at the end of the buffer a pending slice is
emitted with `chunk_emitted = true`. -/
def processBuf (shift : Nat) (o1 : Nat → Nat) (c1 h : Nat) (ce : Bool)
    (pending : List Nat) :
    List Nat → List ChunkInput × (Nat → Nat) × Nat × Nat × Bool
  | [] =>
      if pending.isEmpty then ([], o1, c1, h, ce)
      else ([.data pending], o1, c1, h, true)
  | c :: rest =>
      let h2 := chunkStep o1 c1 h c
      let o1' := fun i => if i = c1 then c else o1 i
      if h2 < 1 <<< shift then
        let res := processBuf shift (fun _ => 0) 0 HM false [] rest
        (.data (pending ++ [c]) :: .endMark :: res.1, res.2)
      else
        processBuf shift o1' c h2 ce (pending ++ [c]) rest

/-- The outer `loop` of `read_chunks` over successive reads; the empty
read emits a final boundary if `chunk_emitted`. -/
def runChunks (shift : Nat) (o1 : Nat → Nat) (c1 h : Nat) (ce : Bool) :
    List (List Nat) → List ChunkInput
  | [] => if ce then [.endMark] else []
  | buf :: bufs =>
      let res := processBuf shift o1 c1 h ce [] buf
      res.1 ++ runChunks shift res.2.1 res.2.2.1 res.2.2.2.1 res.2.2.2.2 bufs

/-- Source: `chunker::read_chunks` with the internal read-buffer size made
explicit (`BUF_SIZE = 8` under `cfg(test)`): `nbits` becomes the shift
`32 - nbits`, and the state starts as `c1 = 0`, `o1 = [0; 256]`,
`h = HM`, `chunk_emitted = false`. -/
def read_chunks (input : List Nat) (nbits : Nat) (bufSize : Nat) : List ChunkInput :=
  runChunks (32 - nbits) (fun _ => 0) 0 HM false (toBuffers bufSize input)

/-- The serialization used by the chunker test and the spec scenario:
each data emission is followed by `.` (46), each boundary is `|` (124). -/
def serializeEvents : List ChunkInput → List Nat
  | [] => []
  | .data d :: rest => d ++ 46 :: serializeEvents rest
  | .endMark :: rest => 124 :: serializeEvents rest

/-- C7: the chunker over `"abcdefghijklmnopqrstuvwxyz1234567890"` with
`nbits = 3` and an 8-byte read buffer produces exactly
`"abcdefgh.ijk.|lmno.|p.q.|rstuvw.|x.yz123.|456.7890.|"`. -/
theorem C7_chunker_fixed_example :
    serializeEvents (read_chunks
      [97, 98, 99, 100, 101, 102, 103, 104, 105, 106, 107, 108, 109, 110,
       111, 112, 113, 114, 115, 116, 117, 118, 119, 120, 121, 122, 49, 50,
       51, 52, 53, 54, 55, 56, 57, 48] 3 8) =
    [97, 98, 99, 100, 101, 102, 103, 104, 46,
     105, 106, 107, 46, 124,
     108, 109, 110, 111, 46, 124,
     112, 46, 113, 46, 124,
     114, 115, 116, 117, 118, 119, 46, 124,
     120, 46, 121, 122, 49, 50, 51, 46, 124,
     52, 53, 54, 46, 55, 56, 57, 48, 46, 124] := by
  decide

/-! ## `src/errors.rs` — the error taxonomy (messages elided) -/

/-- Source: `errors::Error` (the `&'static str` context messages and the
wrapped `io::Error` carry no behaviour and are elided). -/
inductive StoreError where
  | ioError
  | corruptedStore
  | invalidInput
deriving DecidableEq

/-! ## `src/common.rs` — the blob-store garbage collection -/

/-- Source: `EnumerableBlobStorage::collect_garbage` (common.rs 143–151).
The blob store is the list of blob digests it holds; the loop deletes
(`delete_blob`) every enumerated blob whose digest IS contained in
`alive` — note that this is the opposite of its own doc comment
("Removes the blobs whose hash are not in the given set"); the blobs kept
are therefore exactly those NOT in `alive`. -/
def collect_garbage_blobs (alive : List ID) (blobs : List ID) : List ID :=
  blobs.filter (fun b => !(alive.contains b))

/-! ## `src/memory_index.rs` — the in-memory object index -/

/-- Source: `memory_index::Backkey` — dict key or list index of a
back-reference. -/
inductive Backkey where
  | key (k : List Nat)
  | index (i : Nat)
deriving DecidableEq

/-- Source: `memory_index::PermanodeType`. -/
inductive PermanodeType where
  | set
  | single
deriving DecidableEq

/-- Source: `memory_index::Permanode` — the `BTreeMap<Property, ID>` of
indexed claims is an association list sorted by `propertyCmp`. -/
structure Permanode where
  sort : SortKey
  nodetype : PermanodeType
  claims : List (Property × ID)
deriving DecidableEq

/-- `BTreeMap::insert` for the claim map: keeps the list sorted by
`propertyCmp` and replaces the value on an equal key. -/
def btreeInsert (k : Property) (v : ID) : List (Property × ID) → List (Property × ID)
  | [] => [(k, v)]
  | (k2, v2) :: rest =>
      match propertyCmp k k2 with
      | .lt => (k, v) :: (k2, v2) :: rest
      | .eq => (k, v) :: rest
      | .gt => (k2, v2) :: btreeInsert k v rest

/-- `BTreeMap::get` on a `Dict`. -/
def dictGet (d : Dict) (k : List Nat) : Option Property :=
  (d.find? (fun e => e.1 = k)).map (fun e => e.2)

/-- Source: `HASH_SIZE = 32`. -/
def HASH_SIZE : Nat := 32

/-- Source: `Permanode::index_claim` — requires the claim to carry the
sort field (otherwise it is only logged and skipped), inserts
`(sort value, claim id)` into the claim map, and for `Single` nodes with
more than one entry keeps only `next_back()` (the largest sort value) for
an ascending sort and `next()` (the smallest) for a descending one. -/
def Permanode.index_claim (node : Permanode) (claim : Dict) (claim_id : ID) : Permanode :=
  match dictGet claim node.sort.field with
  | none => node
  | some sort_value =>
      let claims2 := btreeInsert sort_value claim_id node.claims
      match node.nodetype with
      | .set => { node with claims := claims2 }
      | .single =>
          if 1 < claims2.length then
            let kept := match node.sort with
              | .ascending _ => claims2.getLast?
              | .descending _ => claims2.head?
            { node with claims := match kept with | some kv => [kv] | none => [] }
          else { node with claims := claims2 }

/-- Source: `insert_into_multimap` — `HashMap<K, HashSet<V>>`, modelled as
an association list of member lists (membership-deduplicated). -/
def insert_into_multimap {α : Type} [DecidableEq α] (mm : List (ID × List α)) (k : ID) (v : α) :
    List (ID × List α) :=
  match mm with
  | [] => [(k, [v])]
  | (k2, s) :: rest =>
      if k2 = k then (k2, if s.contains v then s else s ++ [v]) :: rest
      else (k2, s) :: insert_into_multimap rest k v

/-- `HashMap` lookup on an association list. -/
def assocLookup {α : Type} (l : List (ID × α)) (k : ID) : Option α :=
  (l.find? (fun e => e.1 = k)).map (fun e => e.2)

/-- `HashMap::insert` on an association list (replace or append). -/
def assocInsert {α : Type} (l : List (ID × α)) (k : ID) (v : α) : List (ID × α) :=
  match l with
  | [] => [(k, v)]
  | (k2, v2) :: rest => if k2 = k then (k2, v) :: rest else (k2, v2) :: assocInsert rest k v

/-- Source: `memory_index::MemoryIndex`.  `files` models the on-disk
`objects/` directory that `write_object` creates one file per object in
(the `path` root and the unused `policy` are elided). -/
structure MemoryIndex where
  objects : List (ID × Object)
  backlinks : List (ID × List (Backkey × ID))
  claims : List (ID × List ID)
  permanodes : List (ID × Permanode)
  files : List (ID × Object)
  root : ID
  log : Option ID
deriving DecidableEq

/-- The bytes of `"dhstore_kind"`. -/
def KEY_dhstore_kind : List Nat := [100, 104, 115, 116, 111, 114, 101, 95, 107, 105, 110, 100]

/-- The bytes of `"permanode"`. -/
def STR_permanode : List Nat := [112, 101, 114, 109, 97, 110, 111, 100, 101]

/-- The bytes of `"claim"`. -/
def STR_claim : List Nat := [99, 108, 97, 105, 109]

/-- The bytes of `"random"`. -/
def KEY_random : List Nat := [114, 97, 110, 100, 111, 109]

/-- The bytes of `"sort"`. -/
def KEY_sort : List Nat := [115, 111, 114, 116]

/-- The bytes of `"type"`. -/
def KEY_type : List Nat := [116, 121, 112, 101]

/-- The bytes of `"set"`. -/
def STR_set : List Nat := [115, 101, 116]

/-- The bytes of `"single"`. -/
def STR_single : List Nat := [115, 105, 110, 103, 108, 101]

/-- The bytes of `"node"`. -/
def KEY_node : List Nat := [110, 111, 100, 101]

/-- The bytes of `"value"`. -/
def KEY_value : List Nat := [118, 97, 108, 117, 101]

/-- Source: `MemoryIndex::index_permanode` — validates `random` (a string
of exactly `HASH_SIZE` bytes), `sort` (parseable), and `type`; on any
failure the permanode is only logged and not indexed.  NOTE (sic): the
source's `match` arm is `"set" | "single" => PermanodeType::Set`, so an
explicit `"single"` type is indexed with Set semantics; only an absent
`type` field yields `PermanodeType::Single`.  Previously received claims
are replayed from the claim multimap (entries whose object is missing or
not a dict make the source panic; they cannot arise through
`insert_object_in_index` and are skipped here). -/
def MemoryIndex.index_permanode (idx : MemoryIndex) (object : Object) : MemoryIndex :=
  match object.data with
  | .list _ => idx
  | .dict permanode =>
      match dictGet permanode KEY_random with
      | some (.string s) =>
          if s.length ≠ HASH_SIZE then idx
          else
            match dictGet permanode KEY_sort with
            | some (.string s2) =>
                match SortKey.from_str s2 with
                | none => idx
                | some sort =>
                    let nodetype : Option PermanodeType :=
                      match dictGet permanode KEY_type with
                      | some (.string t) =>
                          if t = STR_set ∨ t = STR_single then some .set else none
                      | none => some .single
                      | some _ => none
                    match nodetype with
                    | none => idx
                    | some nodetype =>
                        let node0 : Permanode := ⟨sort, nodetype, []⟩
                        let node := ((assocLookup idx.claims object.id).getD []).foldl
                          (fun n cid =>
                            match assocLookup idx.objects cid with
                            | some cobj =>
                                match cobj.data with
                                | .dict cd => n.index_claim cd cid
                                | .list _ => n
                            | none => n) node0
                        { idx with permanodes := assocInsert idx.permanodes object.id node }
            | _ => idx
      | _ => idx

/-- Source: `MemoryIndex::index_claim` — a well-formed claim has
reference-typed `node` and `value`; it is recorded in the claim multimap,
and applied to the permanode when that is present. -/
def MemoryIndex.index_claim (idx : MemoryIndex) (object : Object) : MemoryIndex :=
  match object.data with
  | .list _ => idx
  | .dict claim =>
      match dictGet claim KEY_node, dictGet claim KEY_value with
      | some (.reference permanode), some (.reference _) =>
          let idx1 := { idx with claims := insert_into_multimap idx.claims permanode object.id }
          match assocLookup idx1.permanodes permanode with
          | some node =>
              { idx1 with permanodes :=
                  assocInsert idx1.permanodes permanode (node.index_claim claim object.id) }
          | none => idx1
      | _, _ => idx

/-- The `Property` values of an object, in iteration order (dict values in
ascending key order, list values in list order). -/
def propsOf (o : Object) : List Property :=
  match o.data with
  | .dict d => d.map (fun kv => kv.2)
  | .list l => l

/-- The `Reference` targets of an object, in iteration order. -/
def refProps (o : Object) : List ID :=
  (propsOf o).filterMap (fun p => match p with | .reference id => some id | _ => none)

/-- The `Blob` targets of an object, in iteration order. -/
def blobProps (o : Object) : List ID :=
  (propsOf o).filterMap (fun p => match p with | .blob id => some id | _ => none)

/-- Source: `MemoryIndex::insert_object_in_index` — record a backlink
`(target, (position key, source))` for every `Reference` property, handle
`dhstore_kind = "permanode" / "claim"` dicts (unknown kinds and
non-string kinds are only logged), then insert the object itself. -/
def MemoryIndex.insert_object_in_index (idx : MemoryIndex) (object : Object) : MemoryIndex :=
  let idx1 :=
    match object.data with
    | .dict d =>
        let bl2 := d.foldl
          (fun (bl : List (ID × List (Backkey × ID))) (kv : List Nat × Property) =>
            match kv.2 with
            | .reference tid => insert_into_multimap bl tid (.key kv.1, object.id)
            | _ => bl) idx.backlinks
        { idx with backlinks := bl2 }
    | .list l =>
        let bl2 := l.enum.foldl
          (fun (bl : List (ID × List (Backkey × ID))) (iv : Nat × Property) =>
            match iv.2 with
            | .reference tid => insert_into_multimap bl tid (.index iv.1, object.id)
            | _ => bl) idx.backlinks
        { idx with backlinks := bl2 }
  let idx2 :=
    match object.data with
    | .dict dict =>
        match dictGet dict KEY_dhstore_kind with
        | some (.string kind) =>
            if kind = STR_permanode then idx1.index_permanode object
            else if kind = STR_claim then idx1.index_claim object
            else idx1
        | some _ => idx1
        | none => idx1
    | .list _ => idx1
  { idx2 with objects := idx2.objects ++ [(object.id, object)] }

/-- Source: `MemoryIndex::write_object` — create the object's file under
`objects/` (the `files` component). -/
def MemoryIndex.write_object (idx : MemoryIndex) (object : Object) : MemoryIndex :=
  { idx with files := idx.files ++ [(object.id, object)] }

/-- Source: `MemoryIndex::add` (via `serialize::hash_object`, whose digest
computation is the parameter `H`): if the digest is already present
return it unchanged; otherwise write the object to disk and insert it
into the index. -/
def MemoryIndex.add (H : ObjectData → ID) (idx : MemoryIndex) (data : ObjectData) :
    ID × MemoryIndex :=
  let object : Object := ⟨H data, data⟩
  if (assocLookup idx.objects object.id).isSome then (object.id, idx)
  else (object.id, (idx.write_object object).insert_object_in_index object)

/-- Filtering with a stronger predicate keeps at most as many elements. -/
theorem length_filter_impl {α : Type} (p q : α → Bool) (l : List α)
    (h : ∀ a, p a = true → q a = true) :
    (l.filter p).length ≤ (l.filter q).length := by
  induction l with
  | nil => simp
  | cons x rest ih =>
      simp only [List.filter_cons]
      by_cases hx : p x = true
      · rw [hx, h x hx]
        simpa using ih
      · have hx' : p x = false := by simpa using hx
        rw [hx']
        cases hq : q x
        · simpa using ih
        · rw [if_neg (by simp), if_pos rfl]
          simp only [List.length_cons]
          have := ih
          omega

/-- Filtering with a stronger predicate that loses a member of the list is
strictly shrinking. -/
theorem length_filter_lt {α : Type} (p q : α → Bool) (l : List α)
    (h : ∀ a, p a = true → q a = true) (x : α) (hx : x ∈ l)
    (hpx : p x = false) (hqx : q x = true) :
    (l.filter p).length < (l.filter q).length := by
  induction l with
  | nil => cases hx
  | cons y rest ih =>
      simp only [List.filter_cons]
      rcases List.mem_cons.mp hx with rfl | hmem
      · have hmono := length_filter_impl p q rest h
        rw [if_neg (by simp [hpx]), if_pos hqx]
        simp only [List.length_cons]
        omega
      · by_cases hpy : p y = true
        · rw [hpy, h y hpy]
          simpa using ih hmem
        · have hpy' : p y = false := by simpa using hpy
          cases hqy : q y
          · simp [hpy', hqy]
            exact ih hmem
          · have := ih hmem
            simp [hpy', hqy]
            omega

/-- Strict decrease of the not-yet-visited count when a present,
not-yet-alive id becomes alive. -/
theorem filter_uncontained_lt (objects : List (ID × Object)) (id : ID)
    (alive : List ID) (hl : (assocLookup objects id).isSome)
    (hn : ¬alive.contains id = true) :
    (objects.filter (fun p => !((id :: alive).contains p.1))).length <
      (objects.filter (fun p => !(alive.contains p.1))).length := by
  obtain ⟨e, he, hid⟩ : ∃ e ∈ objects, e.1 = id := by
    unfold assocLookup at hl
    cases hfind : List.find? (fun e => decide (e.1 = id)) objects with
    | none => rw [hfind] at hl; simp at hl
    | some e =>
        have hmem := List.mem_of_find?_eq_some hfind
        have hpred := List.find?_some hfind
        exact ⟨e, hmem, by simpa using hpred⟩
  refine length_filter_lt _ _ objects ?_ e he ?_ ?_
  · intro a ha
    simp only [List.contains_cons, Bool.not_or, Bool.and_eq_true,
      Bool.not_eq_true'] at ha ⊢
    exact ha.2
  · simp [hid, List.contains_cons]
  · simp only [hid, Bool.not_eq_true']
    simpa using hn

/-- The BFS loop of `MemoryIndex::walk`: pop an id; a missing object is
only logged; an already-alive id is skipped; otherwise mark it alive,
collect its `Blob` properties (in GC mode) and enqueue its `Reference`
properties. -/
def walkLoop (objects : List (ID × Object)) (collect : Bool)
    (alive : List ID) (blobs : List ID) : (queue : List ID) → List ID × List ID
  | [] => (alive, blobs)
  | id :: rest =>
      match hfound : assocLookup objects id with
      | none => walkLoop objects collect alive blobs rest
      | some o =>
          if alive.contains id then walkLoop objects collect alive blobs rest
          else walkLoop objects collect (id :: alive)
            (blobs ++ (if collect then blobProps o else [])) (rest ++ refProps o)
termination_by queue =>
  ((objects.filter (fun p => !(alive.contains p.1))).length, queue.length)
decreasing_by
  · apply Prod.Lex.right
    simp
  · apply Prod.Lex.right
    simp
  · apply Prod.Lex.left
    have hlt := filter_uncontained_lt objects id alive (by rw [hfound]; rfl) (by assumption)
    simpa using hlt

/-- Source: `MemoryIndex::walk` — start from the root (a missing root is
only logged, leaving the queue empty); in GC mode remove every object not
in the visited set from the in-memory map (files and backlinks are not
touched) and return the live-blob set.  The source function's
`errors::Result` is always `Ok`. -/
def MemoryIndex.walk (idx : MemoryIndex) (collect : Bool) : MemoryIndex × List ID :=
  let queue0 : List ID := if (assocLookup idx.objects idx.root).isSome then [idx.root] else []
  let res := walkLoop idx.objects collect [] [] queue0
  if collect then
    ({ idx with objects := idx.objects.filter (fun p => res.1.contains p.1) }, res.2)
  else (idx, res.2)

/-- Source: `MemoryIndex::verify` — `walk(false)`, discarding the set; the
result is always success. -/
def MemoryIndex.verify (idx : MemoryIndex) : MemoryIndex × Except StoreError Unit :=
  ((idx.walk false).1, .ok ())

/-- Source: `MemoryIndex::collect_garbage` — `walk(true)`. -/
def MemoryIndex.collect_garbage (idx : MemoryIndex) : MemoryIndex × List ID :=
  idx.walk true

/-- Source: `lib.rs Store` over a `FileBlobStorage` (the list of blob
digests it holds) and a `MemoryIndex`. -/
structure Store where
  storage : List ID
  index : MemoryIndex

/-- Source: `Store::collect_garbage` (lib.rs 240–247) — collect the index,
then sweep the blob store with the returned live set. -/
def Store.collect_garbage (st : Store) : Store :=
  let res := st.index.collect_garbage
  { storage := collect_garbage_blobs res.2 st.storage, index := res.1 }

/-! ### Facts about the index used by the claims -/

theorem index_permanode_objects (idx : MemoryIndex) (o : Object) :
    (idx.index_permanode o).objects = idx.objects := by
  unfold MemoryIndex.index_permanode
  repeat' split
  all_goals rfl

theorem index_claim_objects (idx : MemoryIndex) (o : Object) :
    (idx.index_claim o).objects = idx.objects := by
  unfold MemoryIndex.index_claim
  repeat' split
  all_goals try rfl
  all_goals dsimp only
  all_goals split
  all_goals rfl

theorem insert_object_objects (idx : MemoryIndex) (o : Object) :
    (idx.insert_object_in_index o).objects = idx.objects ++ [(o.id, o)] := by
  unfold MemoryIndex.insert_object_in_index
  repeat' split
  all_goals simp [index_permanode_objects, index_claim_objects]

theorem assocLookup_append_last {α : Type} (l : List (ID × α)) (k : ID) (v : α) :
    (assocLookup (l ++ [(k, v)]) k).isSome := by
  induction l with
  | nil => simp [assocLookup]
  | cons q rest ih =>
      unfold assocLookup at ih ⊢
      rw [List.cons_append, List.find?_cons]
      split
      · simp
      · exact ih

/-- C9: adding the same `ObjectData` twice returns the same digest both
times, and the second call changes nothing — neither the files on disk
nor any in-memory map (`H` is the digest function `serialize::hash_object`
applies; the claim holds for every digest function since `hash_object` is
a pure function of the data). -/
theorem C9_idempotent_add (H : ObjectData → ID) (idx : MemoryIndex) (data : ObjectData) :
    MemoryIndex.add H (MemoryIndex.add H idx data).2 data = MemoryIndex.add H idx data := by
  by_cases h : (assocLookup idx.objects (H data)).isSome
  · simp [MemoryIndex.add, h]
  · have h1 : MemoryIndex.add H idx data
        = (H data, (idx.write_object ⟨H data, data⟩).insert_object_in_index ⟨H data, data⟩) := by
      simp [MemoryIndex.add, h]
    have h2 : (assocLookup ((idx.write_object ⟨H data, data⟩).insert_object_in_index
        ⟨H data, data⟩).objects (H data)).isSome := by
      rw [insert_object_objects]
      exact assocLookup_append_last _ _ _
    rw [h1]
    simp [MemoryIndex.add, h2]

/-- C10: when the root digest is absent from the objects map, the walk
only logs it: `verify` still succeeds and leaves the index unchanged,
while `collect_garbage` proceeds with an empty reachable set — every
object is removed from the in-memory map and the returned live-blob set
is empty. -/
theorem C10_missing_root (idx : MemoryIndex)
    (h : assocLookup idx.objects idx.root = none) :
    idx.verify = (idx, Except.ok ()) ∧
    idx.collect_garbage = ({ idx with objects := [] }, []) := by
  have hq : (assocLookup idx.objects idx.root).isSome = false := by simp [h]
  have hempty : idx.objects.filter (fun p => (([] : List ID).contains p.1)) = [] := by
    simp
  constructor
  · unfold MemoryIndex.verify MemoryIndex.walk
    simp [hq, walkLoop]
  · unfold MemoryIndex.collect_garbage MemoryIndex.walk
    simp [hq, walkLoop]

/-- The index state of the C10 witness: one object present, but the root
digest names a different, absent object. -/
def c10Index : MemoryIndex :=
  { objects := [(List.replicate 32 9, ⟨List.replicate 32 9, .dict []⟩)],
    backlinks := [], claims := [], permanodes := [],
    files := [(List.replicate 32 9, ⟨List.replicate 32 9, .dict []⟩)],
    root := List.replicate 32 7, log := none }

/-- Witness for C10 at a concrete index whose root is missing. -/
theorem C10_missing_root_witness :
    assocLookup c10Index.objects c10Index.root = none ∧
    c10Index.collect_garbage = ({ c10Index with objects := [] }, []) :=
  ⟨by decide, (C10_missing_root c10Index (by decide)).2⟩

/-! ### C3: a permanode explicitly typed `"single"` gets Set semantics -/

/-- The dict of the C3 permanode: well-formed, with `type = "single"`. -/
def c3PermanodeDict : Dict :=
  [(KEY_dhstore_kind, .string STR_permanode),
   (KEY_random, .string (List.replicate 32 114)),
   (KEY_sort, .string [43, 116]),
   (KEY_type, .string STR_single)]

/-- A C3 claim naming the permanode, carrying sort field `t` (116) with
the given sort value byte. -/
def c3ClaimDict (v : Nat) : Dict :=
  [(KEY_dhstore_kind, .string STR_claim),
   (KEY_node, .reference (List.replicate 32 3)),
   ([116], .string [v]),
   (KEY_value, .reference (List.replicate 32 6))]

/-- An index with no objects yet. -/
def emptyIndex (root : ID) : MemoryIndex :=
  { objects := [], backlinks := [], claims := [], permanodes := [],
    files := [], root := root, log := none }

/-- The C3 scenario: insert the `"single"`-typed permanode, then two
claims with distinct sort values, through the index's own insertion
path. -/
def c3Index : MemoryIndex :=
  ((((emptyIndex (List.replicate 32 3)).insert_object_in_index
      ⟨List.replicate 32 3, .dict c3PermanodeDict⟩).insert_object_in_index
      ⟨List.replicate 32 4, .dict (c3ClaimDict 97)⟩).insert_object_in_index
      ⟨List.replicate 32 5, .dict (c3ClaimDict 98)⟩)

/-- C3: the permanode carries `type = "single"`, yet after two claim
insertions its indexed claim set has size 2 — the source's match arm
`"set" | "single" => PermanodeType::Set` gives an explicit `"single"`
type Set semantics, violating the at-most-one invariant the spec states
(only an absent `type` field yields Single semantics). -/
theorem C3_single_type_eval :
    dictGet c3PermanodeDict KEY_type = some (.string STR_single) ∧
    (assocLookup c3Index.permanodes (List.replicate 32 3)).map
      (fun n => n.claims.length) = some 2 := by
  constructor
  · decide
  · decide

/-! ### C1: the blob-store sweep deletes the live blobs -/

/-- The C1 store: the root object (id `[1]`) carries a `Blob` property
naming blob `[11]`, and the blob store holds `[11]` and an unreferenced
garbage blob `[22]`. -/
def c1Index : MemoryIndex :=
  (emptyIndex [1]).insert_object_in_index ⟨[1], .dict [([100], .blob [11])]⟩

def c1Store : Store :=
  { storage := [[11], [22]], index := c1Index }

/-- C1: evaluating `Store::collect_garbage` on a store whose root object
references blob `[11]` while the blob store holds `[11]` and the garbage
blob `[22]`: the sweep deletes exactly the LIVE blob `[11]` and keeps the
garbage blob `[22]` — the opposite of the claim and of
`collect_garbage`'s own doc comment ("Removes the blobs whose hash are
not in the given set"), because the loop deletes the blobs whose digest
IS in the live set.  The removed blob `[11]` is still named by a `Blob`
property of the remaining (root) object. -/
theorem C1_blob_gc_inverted_eval :
    c1Store.collect_garbage.storage = [[22]] ∧
    c1Store.collect_garbage.index.objects.map (fun p => blobProps p.2)
      = [[[11]]] := by
  have e2 : assocLookup c1Index.objects [1] =
      some ⟨[1], .dict [([100], Property.blob [11])]⟩ := by decide
  have hw : walkLoop c1Index.objects true [] [] [[1]] = ([[1]], [[11]]) := by
    rw [walkLoop]
    split
    · rename_i h
      simp [e2] at h
    · rename_i o h
      rw [e2] at h
      injection h with h
      subst h
      have e3 : refProps ⟨[1], .dict [([100], Property.blob [11])]⟩ = ([] : List ID) := by
        decide
      have e4 : blobProps ⟨[1], .dict [([100], Property.blob [11])]⟩ = [[11]] := by
        decide
      simp only [e3, e4, List.contains_nil, Bool.false_eq_true, if_false, List.nil_append]
      rw [walkLoop]
      rfl
  have e5 : c1Index.root = [1] := by decide
  have e6 : c1Index.objects.filter (fun p => (([[1]] : List ID).contains p.1))
      = c1Index.objects := by decide
  have hgc : c1Index.collect_garbage = (c1Index, [[11]]) := by
    unfold MemoryIndex.collect_garbage MemoryIndex.walk
    rw [e5]
    simp only [e2, Option.isSome_some, if_true, hw, e6]
    rw [← e5]
  constructor
  · show (collect_garbage_blobs c1Index.collect_garbage.2 c1Store.storage) = [[22]]
    rw [hgc]
    decide
  · show (c1Index.collect_garbage.1.objects.map (fun p => blobProps p.2)) = [[[11]]]
    rw [hgc]
    decide

/-! ## `src/file_storage.rs` — blob paths and enumeration -/

/-- The sixteen lowercase hexadecimal digit characters. -/
def hexChars : List Nat := [48, 49, 50, 51, 52, 53, 54, 55, 56, 57, 97, 98, 99, 100, 101, 102]

/-- Modelled from the spec: `ID::hex`, the legacy 64-character hexadecimal
textual form of a digest ("a legacy hexadecimal form (64 chars)"); the
method itself is not among the repository's files — only its callers in
`file_storage.rs` are.  Each of the 32 bytes yields two hex digits. -/
def ID.hex (id : ID) : List Nat :=
  id.flatMap (fun b => [hexChars.getD (b / 16) 0, hexChars.getD (b % 16) 0])

/-- Source: `FileBlobStorage::filename` — the blob path
`blobs/<hex[..2]>/<hex[2..]>`: shard directory name and file name. -/
def FileBlobStorage.filename (id : ID) : List Nat × List Nat :=
  ((ID.hex id).take 2, (ID.hex id).drop 2)

/-- Modelled from the spec: `ID::from_hex`, strict decode of the
64-character hexadecimal form (not among the repository's files; called
from `FileBlobIterator::next`). -/
def hexVal (c : Nat) : Option Nat := hexChars.findIdx? (fun d => d = c)

def hexPairs : List Nat → Option (List Nat)
  | [] => some []
  | [_] => none
  | hi :: lo :: rest =>
      match hexVal hi, hexVal lo with
      | some a, some b => (hexPairs rest).map (fun t => (a * 16 + b) :: t)
      | _, _ => none

def ID.from_hex (s : List Nat) : Option ID :=
  if s.length = 64 then hexPairs s else none

instance {ε α : Type} [DecidableEq ε] [DecidableEq α] : DecidableEq (Except ε α)
  | .error e1, .error e2 => decidable_of_iff (e1 = e2) (by simp)
  | .ok a1, .ok a2 => decidable_of_iff (a1 = a2) (by simp)
  | .error _, .ok _ => isFalse (by simp)
  | .ok _, .error _ => isFalse (by simp)

/-- Source: `FileBlobIterator::next`, the per-file logic: with the shard
(first-level) name already length-checked, a second-level name that is
not exactly 62 characters is a `CorruptedStore` error
("Second-level entry has invalid length"); otherwise the 64-character
concatenation is decoded with `ID::from_hex` ("Path is not a valid
ID"). -/
def blobEntryResult (first_val : List Nat) (name : List Nat) : Except StoreError ID :=
  if name.length ≠ 62 then .error .corruptedStore
  else
    match ID.from_hex (first_val ++ name) with
    | some id => .ok id
    | none => .error .corruptedStore

/-- Source: `FileBlobIterator::next`, iterated over the whole `blobs/`
tree (a list of shard directories with their file names): a first-level
name that is not exactly 2 characters is a `CorruptedStore` error
("First-level entry has invalid length") and its directory is not
descended into; otherwise each entry is checked by `blobEntryResult`. -/
def list_blobs (dirs : List (List Nat × List (List Nat))) : List (Except StoreError ID) :=
  dirs.flatMap (fun d =>
    if d.1.length ≠ 2 then [.error .corruptedStore]
    else d.2.map (fun name => blobEntryResult d.1 name))

theorem hex_length : ∀ id : ID, (ID.hex id).length = 2 * id.length := by
  intro id
  induction id with
  | nil => simp [ID.hex]
  | cons b rest ih =>
      simp only [ID.hex, List.flatMap_cons] at ih ⊢
      simp only [List.length_append, List.length_cons, List.length_nil, List.length_cons]
      simp only [ih]
      omega

/-- C5 counterexample: for a concrete digest the file-name part of the
blob path has 62 characters, not the 42 the claim states; and a 42-character
second-level name is reported as store corruption, although under the
claim 42-character names are the well-formed ones. -/
theorem C5_sharding_counterexample :
    (FileBlobStorage.filename (List.replicate 32 0)).2.length = 62 ∧
    ¬(FileBlobStorage.filename (List.replicate 32 0)).2.length = 42 ∧
    blobEntryResult [48, 48] (List.replicate 42 48) = .error .corruptedStore := by
  refine ⟨by decide, by decide, by decide⟩

/-- C5 (amended): blob paths are built from the 64-character hexadecimal
textual digest — the shard directory name is its first 2 characters and
the file name the remaining 62 — and enumeration reports any first-level
name that is not 2 characters, or any second-level name that is not 62
characters, as a store-corruption error. -/
theorem C5_sharding_amended :
    (∀ id : ID, id.length = 32 →
      (FileBlobStorage.filename id).1.length = 2 ∧
      (FileBlobStorage.filename id).2.length = 62) ∧
    (∀ shard : List Nat, ∀ names : List (List Nat), shard.length ≠ 2 →
      list_blobs [(shard, names)] = [.error .corruptedStore]) ∧
    (∀ shard name : List Nat, name.length ≠ 62 →
      blobEntryResult shard name = .error .corruptedStore) := by
  refine ⟨?_, ?_, ?_⟩
  · intro id hlen
    have h := hex_length id
    rw [hlen] at h
    constructor
    · simp [FileBlobStorage.filename, h]
    · simp [FileBlobStorage.filename, h]
  · intro shard names hne
    simp [list_blobs, hne]
  · intro shard name hne
    simp [blobEntryResult, hne]

/-- Witness for C5 at the all-zero digest and a concrete bad shard
name. -/
theorem C5_sharding_amended_witness :
    ((FileBlobStorage.filename (List.replicate 32 0)).1.length = 2 ∧
      (FileBlobStorage.filename (List.replicate 32 0)).2.length = 62) ∧
    list_blobs [([48], [List.replicate 62 48])] = [.error .corruptedStore] :=
  ⟨C5_sharding_amended.1 (List.replicate 32 0) (by decide),
   C5_sharding_amended.2.1 [48] [List.replicate 62 48] (by decide)⟩


/-! ### C2: what the garbage-collection walk does and does not remove -/

/-- `l.contains` agrees with membership. -/
theorem contains_iff_mem (l : List ID) (a : ID) : l.contains a = true ↔ a ∈ l :=
  ⟨List.mem_of_elem_eq_true, List.elem_eq_true_of_mem⟩

/-- One reference edge of the object graph: the object stored at `a`
carries a `Reference` property targeting `b`. -/
def walkEdge (objects : List (ID × Object)) (a b : ID) : Prop :=
  ∃ o, assocLookup objects a = some o ∧ b ∈ refProps o

theorem walkLoop_nil (objects : List (ID × Object)) (collect : Bool)
    (alive blobs : List ID) :
    walkLoop objects collect alive blobs [] = (alive, blobs) := by
  rw [walkLoop]

theorem walkLoop_cons_none (objects : List (ID × Object)) (collect : Bool)
    (alive blobs : List ID) (id : ID) (rest : List ID)
    (h : assocLookup objects id = none) :
    walkLoop objects collect alive blobs (id :: rest)
      = walkLoop objects collect alive blobs rest := by
  rw [walkLoop]
  split
  · rfl
  · rename_i o hfound
    simp [h] at hfound

theorem walkLoop_cons_skip (objects : List (ID × Object)) (collect : Bool)
    (alive blobs : List ID) (id : ID) (rest : List ID) (o : Object)
    (h : assocLookup objects id = some o) (hc : alive.contains id = true) :
    walkLoop objects collect alive blobs (id :: rest)
      = walkLoop objects collect alive blobs rest := by
  rw [walkLoop]
  split
  · rename_i hfound
    simp [h] at hfound
  · rename_i o2 hfound
    rw [if_pos hc]

theorem walkLoop_cons_new (objects : List (ID × Object)) (collect : Bool)
    (alive blobs : List ID) (id : ID) (rest : List ID) (o : Object)
    (h : assocLookup objects id = some o) (hc : ¬alive.contains id = true) :
    walkLoop objects collect alive blobs (id :: rest)
      = walkLoop objects collect (id :: alive)
          (blobs ++ (if _h : collect = true then blobProps o else []))
          (rest ++ refProps o) := by
  rw [walkLoop]
  split
  · rename_i hfound
    simp [h] at hfound
  · rename_i o2 hfound
    rw [h] at hfound
    injection hfound with he
    subst he
    rw [if_neg hc, dite_eq_ite]

/-- Ids alive when the loop starts are still alive when it ends. -/
theorem walkLoop_mono (objects : List (ID × Object)) (collect : Bool)
    (alive blobs queue : List ID) :
    ∀ a ∈ alive, a ∈ (walkLoop objects collect alive blobs queue).1 := by
  induction alive, blobs, queue using walkLoop.induct objects collect with
  | case1 alive blobs =>
      rw [walkLoop_nil]
      exact fun a ha => ha
  | case2 alive blobs id rest h ih =>
      rw [walkLoop_cons_none _ _ _ _ _ _ h]
      exact ih
  | case3 alive blobs id rest o h hc ih =>
      rw [walkLoop_cons_skip _ _ _ _ _ _ _ h hc]
      exact ih
  | case4 alive blobs id rest o h hc ih =>
      rw [walkLoop_cons_new _ _ _ _ _ _ _ h hc]
      exact fun a ha => ih a (List.mem_cons_of_mem _ ha)

/-- Every id the loop reports alive was alive at the start or names a
present object. -/
theorem walkLoop_dom (objects : List (ID × Object)) (collect : Bool)
    (alive blobs queue : List ID) :
    ∀ x ∈ (walkLoop objects collect alive blobs queue).1,
      x ∈ alive ∨ (assocLookup objects x).isSome = true := by
  induction alive, blobs, queue using walkLoop.induct objects collect with
  | case1 alive blobs =>
      rw [walkLoop_nil]
      exact fun x hx => Or.inl hx
  | case2 alive blobs id rest h ih =>
      rw [walkLoop_cons_none _ _ _ _ _ _ h]
      exact ih
  | case3 alive blobs id rest o h hc ih =>
      rw [walkLoop_cons_skip _ _ _ _ _ _ _ h hc]
      exact ih
  | case4 alive blobs id rest o h hc ih =>
      rw [walkLoop_cons_new _ _ _ _ _ _ _ h hc]
      intro x hx
      rcases ih x hx with hx2 | hs
      · rcases List.mem_cons.mp hx2 with rfl | hmem
        · exact Or.inr (by rw [h]; rfl)
        · exact Or.inl hmem
      · exact Or.inr hs

/-- A queued id naming a present object ends up alive. -/
theorem walkLoop_queue (objects : List (ID × Object)) (collect : Bool)
    (alive blobs queue : List ID) :
    ∀ x ∈ queue, (assocLookup objects x).isSome = true →
      x ∈ (walkLoop objects collect alive blobs queue).1 := by
  induction alive, blobs, queue using walkLoop.induct objects collect with
  | case1 alive blobs =>
      intro x hx _
      cases hx
  | case2 alive blobs id rest h ih =>
      rw [walkLoop_cons_none _ _ _ _ _ _ h]
      intro x hx hs
      rcases List.mem_cons.mp hx with rfl | hmem
      · rw [h] at hs
        cases hs
      · exact ih x hmem hs
  | case3 alive blobs id rest o h hc ih =>
      rw [walkLoop_cons_skip _ _ _ _ _ _ _ h hc]
      intro x hx hs
      rcases List.mem_cons.mp hx with rfl | hmem
      · exact walkLoop_mono _ _ _ _ _ x ((contains_iff_mem _ _).mp hc)
      · exact ih x hmem hs
  | case4 alive blobs id rest o h hc ih =>
      rw [walkLoop_cons_new _ _ _ _ _ _ _ h hc]
      intro x hx hs
      rcases List.mem_cons.mp hx with rfl | hmem
      · exact walkLoop_mono _ _ _ _ _ x (List.mem_cons_self _ _)
      · exact ih x (List.mem_append_left _ hmem) hs

/-- The loop invariant: every outgoing edge of an alive id into a present
object lands in the alive set or the queue. -/
def walkInv (objects : List (ID × Object)) (alive queue : List ID) : Prop :=
  ∀ a ∈ alive, ∀ b, walkEdge objects a b → (assocLookup objects b).isSome = true →
    b ∈ alive ∨ b ∈ queue

/-- Under the invariant, the final alive set is closed under reference
edges into present objects. -/
theorem walkLoop_closed (objects : List (ID × Object)) (collect : Bool)
    (alive blobs queue : List ID) :
    walkInv objects alive queue →
    ∀ a ∈ (walkLoop objects collect alive blobs queue).1, ∀ b,
      walkEdge objects a b → (assocLookup objects b).isSome = true →
      b ∈ (walkLoop objects collect alive blobs queue).1 := by
  induction alive, blobs, queue using walkLoop.induct objects collect with
  | case1 alive blobs =>
      intro hinv a ha b he hs
      rw [walkLoop_nil] at ha ⊢
      rcases hinv a ha b he hs with hb | hb
      · exact hb
      · cases hb
  | case2 alive blobs id rest h ih =>
      rw [walkLoop_cons_none _ _ _ _ _ _ h]
      intro hinv
      apply ih
      intro a ha b he hs
      rcases hinv a ha b he hs with hb | hb
      · exact Or.inl hb
      · rcases List.mem_cons.mp hb with rfl | hmem
        · rw [h] at hs
          cases hs
        · exact Or.inr hmem
  | case3 alive blobs id rest o h hc ih =>
      rw [walkLoop_cons_skip _ _ _ _ _ _ _ h hc]
      intro hinv
      apply ih
      intro a ha b he hs
      rcases hinv a ha b he hs with hb | hb
      · exact Or.inl hb
      · rcases List.mem_cons.mp hb with rfl | hmem
        · exact Or.inl ((contains_iff_mem _ _).mp hc)
        · exact Or.inr hmem
  | case4 alive blobs id rest o h hc ih =>
      rw [walkLoop_cons_new _ _ _ _ _ _ _ h hc]
      intro hinv
      apply ih
      intro a ha b he hs
      rcases List.mem_cons.mp ha with rfl | hmem
      · obtain ⟨o2, ho2, hbmem⟩ := he
        rw [h] at ho2
        injection ho2 with he2
        subst he2
        exact Or.inr (List.mem_append_right _ hbmem)
      · rcases hinv a hmem b he hs with hb | hb
        · exact Or.inl (List.mem_cons_of_mem _ hb)
        · rcases List.mem_cons.mp hb with rfl | hmem2
          · exact Or.inl (List.mem_cons_self _ _)
          · exact Or.inr (List.mem_append_left _ hmem2)

/-- Every id the loop reports alive was alive at the start or is reachable
from a queued id along reference edges. -/
theorem walkLoop_sound (objects : List (ID × Object)) (collect : Bool)
    (alive blobs queue : List ID) :
    ∀ x ∈ (walkLoop objects collect alive blobs queue).1,
      x ∈ alive ∨ ∃ s ∈ queue, Relation.ReflTransGen (walkEdge objects) s x := by
  induction alive, blobs, queue using walkLoop.induct objects collect with
  | case1 alive blobs =>
      rw [walkLoop_nil]
      exact fun x hx => Or.inl hx
  | case2 alive blobs id rest h ih =>
      rw [walkLoop_cons_none _ _ _ _ _ _ h]
      intro x hx
      rcases ih x hx with hx2 | ⟨s, hsmem, hr⟩
      · exact Or.inl hx2
      · exact Or.inr ⟨s, List.mem_cons_of_mem _ hsmem, hr⟩
  | case3 alive blobs id rest o h hc ih =>
      rw [walkLoop_cons_skip _ _ _ _ _ _ _ h hc]
      intro x hx
      rcases ih x hx with hx2 | ⟨s, hsmem, hr⟩
      · exact Or.inl hx2
      · exact Or.inr ⟨s, List.mem_cons_of_mem _ hsmem, hr⟩
  | case4 alive blobs id rest o h hc ih =>
      rw [walkLoop_cons_new _ _ _ _ _ _ _ h hc]
      intro x hx
      rcases ih x hx with hx2 | ⟨s, hsmem, hr⟩
      · rcases List.mem_cons.mp hx2 with rfl | hmem
        · exact Or.inr ⟨_, List.mem_cons_self _ _, Relation.ReflTransGen.refl⟩
        · exact Or.inl hmem
      · rcases List.mem_append.mp hsmem with hmem | hmem
        · exact Or.inr ⟨s, List.mem_cons_of_mem _ hmem, hr⟩
        · exact Or.inr ⟨id, List.mem_cons_self _ _,
            Relation.ReflTransGen.head ⟨o, h, hmem⟩ hr⟩

/-- In GC mode the collected blob list holds exactly the starting blobs
plus the `Blob` properties of the newly visited objects. -/
theorem walkLoop_blobs (objects : List (ID × Object))
    (alive blobs queue : List ID) :
    ∀ b, b ∈ (walkLoop objects true alive blobs queue).2 ↔
      (b ∈ blobs ∨ ∃ a o, a ∈ (walkLoop objects true alive blobs queue).1 ∧
        a ∉ alive ∧ assocLookup objects a = some o ∧ b ∈ blobProps o) := by
  induction alive, blobs, queue using walkLoop.induct objects true with
  | case1 alive blobs =>
      rw [walkLoop_nil]
      intro b
      constructor
      · exact Or.inl
      · rintro (hb | ⟨a, o, ha, hna, _, _⟩)
        · exact hb
        · exact absurd ha hna
  | case2 alive blobs id rest h ih =>
      rw [walkLoop_cons_none _ _ _ _ _ _ h]
      exact ih
  | case3 alive blobs id rest o h hc ih =>
      rw [walkLoop_cons_skip _ _ _ _ _ _ _ h hc]
      exact ih
  | case4 alive blobs id rest o h hc ih =>
      have hco : (blobs ++ if _h : (true = true) then blobProps o else [])
          = blobs ++ blobProps o := by simp
      rw [walkLoop_cons_new _ _ _ _ _ _ _ h hc]
      rw [hco] at ih ⊢
      intro b
      rw [ih b]
      constructor
      · rintro (hb | ⟨a, o2, ha, hna, hl, hbp⟩)
        · rcases List.mem_append.mp hb with hb2 | hb2
          · exact Or.inl hb2
          · refine Or.inr ⟨id, o, ?_, ?_, h, hb2⟩
            · exact walkLoop_mono _ _ _ _ _ id (List.mem_cons_self _ _)
            · exact fun hmem => hc ((contains_iff_mem _ _).mpr hmem)
        · refine Or.inr ⟨a, o2, ha, ?_, hl, hbp⟩
          exact fun hmem => hna (List.mem_cons_of_mem _ hmem)
      · rintro (hb | ⟨a, o2, ha, hna, hl, hbp⟩)
        · exact Or.inl (List.mem_append_left _ hb)
        · by_cases hai : a = id
          · subst hai
            rw [h] at hl
            injection hl with he2
            subst he2
            exact Or.inl (List.mem_append_right _ hbp)
          · exact Or.inr ⟨a, o2, ha,
              fun hm => ((List.mem_cons.mp hm).elim hai hna), hl, hbp⟩

/-- Every object reachable from a present root along reference edges ends
up alive. -/
theorem walkLoop_complete (objects : List (ID × Object)) (collect : Bool)
    (root : ID) (hr : (assocLookup objects root).isSome = true) :
    ∀ x, Relation.ReflTransGen (walkEdge objects) root x →
      (assocLookup objects x).isSome = true →
      x ∈ (walkLoop objects collect [] [] [root]).1 := by
  intro x hrtg
  induction hrtg with
  | refl =>
      intro _
      exact walkLoop_queue _ _ _ _ _ root (List.mem_cons_self _ _) hr
  | tail h1 h2 ih =>
      rename_i b c
      intro hsc
      obtain ⟨o, hob, -⟩ := id h2
      have hb : b ∈ (walkLoop objects collect [] [] [root]).1 :=
        ih (by rw [hob]; rfl)
      refine walkLoop_closed objects collect [] [] [root] ?_ b hb c h2 hsc
      intro a ha _ _ _
      exact absurd ha (List.not_mem_nil a)

/-- The alive set computed by `MemoryIndex::walk`'s loop is exactly the
set of present objects reachable from the root. -/
theorem walk_alive_iff (objects : List (ID × Object)) (collect : Bool)
    (root : ID) (x : ID) :
    x ∈ (walkLoop objects collect [] []
        (if (assocLookup objects root).isSome then [root] else [])).1 ↔
      ((assocLookup objects x).isSome = true ∧
        Relation.ReflTransGen (walkEdge objects) root x) := by
  by_cases hr : (assocLookup objects root).isSome = true
  · rw [if_pos hr]
    constructor
    · intro hx
      refine ⟨?_, ?_⟩
      · rcases walkLoop_dom objects collect [] [] [root] x hx with h0 | h0
        · cases h0
        · exact h0
      · rcases walkLoop_sound objects collect [] [] [root] x hx with h0 | ⟨s, hs, hrtg⟩
        · cases h0
        · rcases List.mem_cons.mp hs with rfl | h0
          · exact hrtg
          · cases h0
    · rintro ⟨hsx, hrtg⟩
      exact walkLoop_complete objects collect root hr x hrtg hsx
  · rw [if_neg hr, walkLoop_nil]
    constructor
    · intro hx
      cases hx
    · rintro ⟨hsx, hrtg⟩
      rcases Relation.ReflTransGen.cases_head hrtg with rfl | ⟨b, hedge, _⟩
      · exact absurd hsx hr
      · obtain ⟨o, ho, _⟩ := hedge
        exact absurd (by rw [ho]; rfl) hr

/-- The blob list computed by the walk in GC mode is exactly the `Blob`
properties of the reachable objects. -/
theorem walk_blobs_iff (objects : List (ID × Object)) (root : ID) (b : ID) :
    b ∈ (walkLoop objects true [] []
        (if (assocLookup objects root).isSome then [root] else [])).2 ↔
      ∃ a o, Relation.ReflTransGen (walkEdge objects) root a ∧
        assocLookup objects a = some o ∧ b ∈ blobProps o := by
  rw [walkLoop_blobs]
  constructor
  · rintro (hb | ⟨a, o, ha, _, hl, hbp⟩)
    · cases hb
    · exact ⟨a, o, ((walk_alive_iff objects true root a).mp ha).2, hl, hbp⟩
  · rintro ⟨a, o, hrtg, hl, hbp⟩
    refine Or.inr ⟨a, o, ?_, List.not_mem_nil a, hl, hbp⟩
    exact (walk_alive_iff objects true root a).mpr ⟨by rw [hl]; rfl, hrtg⟩

theorem assocLookup_cons {α : Type} (e : ID × α) (l : List (ID × α)) (k : ID) :
    assocLookup (e :: l) k = if e.1 = k then some e.2 else assocLookup l k := by
  unfold assocLookup
  rw [List.find?_cons]
  by_cases hk : e.1 = k
  · simp [hk]
  · simp [hk]

/-- Looking up in a key-filtered association list. -/
theorem assocLookup_filter (objects : List (ID × Object)) (f : ID → Bool) (k : ID) :
    assocLookup (objects.filter (fun p => f p.1)) k
      = if f k then assocLookup objects k else none := by
  induction objects with
  | nil => cases hfk : f k <;> simp [assocLookup, hfk]
  | cons e rest ih =>
      obtain ⟨a, v⟩ := e
      rw [List.filter_cons]
      dsimp only
      by_cases hk : a = k
      · subst hk
        by_cases hf : f a = true
        · rw [if_pos hf, assocLookup_cons, assocLookup_cons]
          simp [hf]
        · have hf' : f a = false := by simpa using hf
          rw [if_neg (by simp [hf']), ih]
          simp [hf']
      · by_cases hf : f a = true
        · rw [if_pos hf, assocLookup_cons, assocLookup_cons, if_neg hk, ih, if_neg hk]
        · have hf' : f a = false := by simpa using hf
          rw [if_neg (by simp [hf']), ih, assocLookup_cons, if_neg hk]

/-- C2, amended: `MemoryIndex::collect_garbage` keeps exactly the objects
reachable from the root in the in-memory map and returns exactly the
`Blob`-property digests of the reachable objects — but it deletes no
object file and removes no backlink entry: `files` and `backlinks` are
returned unchanged. -/
theorem C2_gc_amended (idx : MemoryIndex) :
    (∀ x, (assocLookup idx.collect_garbage.1.objects x).isSome = true ↔
        ((assocLookup idx.objects x).isSome = true ∧
          Relation.ReflTransGen (walkEdge idx.objects) idx.root x)) ∧
    idx.collect_garbage.1.backlinks = idx.backlinks ∧
    idx.collect_garbage.1.files = idx.files ∧
    (∀ b, b ∈ idx.collect_garbage.2 ↔
        ∃ a o, Relation.ReflTransGen (walkEdge idx.objects) idx.root a ∧
          assocLookup idx.objects a = some o ∧ b ∈ blobProps o) := by
  have hobj : idx.collect_garbage.1.objects
      = idx.objects.filter (fun p => (walkLoop idx.objects true [] []
          (if (assocLookup idx.objects idx.root).isSome then [idx.root]
           else [])).1.contains p.1) := rfl
  have hsnd : idx.collect_garbage.2
      = (walkLoop idx.objects true [] []
          (if (assocLookup idx.objects idx.root).isSome then [idx.root]
           else [])).2 := rfl
  refine ⟨?_, rfl, rfl, ?_⟩
  · intro x
    rw [hobj, assocLookup_filter]
    by_cases hx : (walkLoop idx.objects true [] []
        (if (assocLookup idx.objects idx.root).isSome then [idx.root]
         else [])).1.contains x = true
    · rw [if_pos hx]
      have hxa := (walk_alive_iff idx.objects true idx.root x).mp
        ((contains_iff_mem _ _).mp hx)
      exact ⟨fun _ => hxa, fun h2 => h2.1⟩
    · rw [if_neg hx]
      constructor
      · intro h0
        exact absurd h0 (by simp)
      · rintro ⟨hs, hrtg⟩
        exact absurd ((contains_iff_mem _ _).mpr
          ((walk_alive_iff idx.objects true idx.root x).mpr ⟨hs, hrtg⟩)) hx
  · intro b
    rw [hsnd]
    exact walk_blobs_iff idx.objects idx.root b

/-- The digest function of the C2 counterexample: the empty dict hashes
to `[1]`, everything else to `[2]`. -/
def c2H (d : ObjectData) : ID :=
  match d with
  | .dict [] => [1]
  | _ => [2]

/-- The C2 index, built through `MemoryIndex::add` so that both the
object files and the backlinks are populated by the real insertion path:
the root object `[1]` (an empty dict), then object `[2]` holding a
`Reference` to `[1]` — so `[2]` is unreachable from the root. -/
def c2Index : MemoryIndex :=
  (MemoryIndex.add c2H
    (MemoryIndex.add c2H (emptyIndex [1]) (.dict [])).2
    (.dict [([120], .reference [1])])).2

/-- C2 counterexample: object `[2]` (which references the root but is
unreachable from it) is removed from the objects map by
`collect_garbage`, yet its backlink entry `([1], [(key "x", [2])])` is
still present in `backlinks` and its file is still present in `files` —
the walk never touches either map, contradicting the claimed backlink
cleanup and file deletion. -/
theorem C2_gc_counterexample :
    (assocLookup c2Index.objects [2]).isSome = true ∧
    assocLookup c2Index.collect_garbage.1.objects [2] = none ∧
    c2Index.collect_garbage.1.backlinks = [([1], [(Backkey.key [120], [2])])] ∧
    assocLookup c2Index.collect_garbage.1.files [2]
      = some ⟨[2], .dict [([120], Property.reference [1])]⟩ := by
  have e2 : assocLookup c2Index.objects [1] = some ⟨[1], ObjectData.dict []⟩ := by
    decide
  have hw : walkLoop c2Index.objects true [] [] [[1]] = ([[1]], []) := by
    rw [walkLoop]
    split
    · rename_i h
      simp [e2] at h
    · rename_i o h
      rw [e2] at h
      injection h with h
      subst h
      have e3 : refProps ⟨[1], ObjectData.dict []⟩ = ([] : List ID) := by decide
      have e4 : blobProps ⟨[1], ObjectData.dict []⟩ = ([] : List ID) := by decide
      simp only [e3, e4, List.contains_nil, Bool.false_eq_true, if_false,
        List.nil_append, List.append_nil]
      rw [walkLoop]
      rfl
  have e5 : c2Index.root = [1] := by decide
  have e6 : c2Index.objects.filter (fun p => (([[1]] : List ID).contains p.1))
      = [([1], ⟨[1], ObjectData.dict []⟩)] := by decide
  have hgc : c2Index.collect_garbage
      = ({ c2Index with objects := [([1], ⟨[1], ObjectData.dict []⟩)] }, []) := by
    unfold MemoryIndex.collect_garbage MemoryIndex.walk
    rw [e5]
    simp only [e2, Option.isSome_some, if_true, hw, e6]
    rw [e5]
  refine ⟨by decide, ?_, ?_, ?_⟩
  · rw [hgc]
    decide
  · rw [hgc]
    decide
  · rw [hgc]
    decide
end DHStore
